import Mathlib

/-!
Verification of the properties-file translation pipeline
(`properties_parser.py`, `translation_validator.py`,
`translate_localization_files.py`).

Strings are modelled as `List Char`; Python `dict`s as insertion-ordered
association lists; the filesystem is passed explicitly (file contents as
values).  Every definition mirrors the corresponding Python function.
-/

abbrev Str := List Char

def chars (s : String) : Str := s.toList

/-- ASCII approximation of Python's `str.isspace` for a single character. -/
def isPySpace (c : Char) : Bool :=
  c == ' ' || c == '\t' || c == '\n' || c == '\r' || c == '\x0b' || c == '\x0c'

/-- The two key/value separator characters of a `.properties` line. -/
def isSepChar (c : Char) : Bool := c == ':' || c == '='

/-- Python `str.lstrip()`. -/
def pyLStrip (s : Str) : Str := s.dropWhile isPySpace

/-- Python `str.rstrip()`. -/
def pyRStrip (s : Str) : Str := (s.reverse.dropWhile isPySpace).reverse

/-- Python `str.strip()`. -/
def pyStrip (s : Str) : Str := pyRStrip (pyLStrip s)

/-- Python `str.rstrip('\n')`. -/
def rstripNewlines (s : Str) : Str := (s.reverse.dropWhile (· == '\n')).reverse

/-- Number of consecutive `'\\'` characters at the end of `s`. -/
def trailingBackslashCount (s : Str) : Nat :=
  (s.reverse.takeWhile (· == '\\')).length

/-- `_has_unescaped_trailing_backslash` from `properties_parser.py`:
`s` ends with an odd number of backslashes. -/
def hasUnescapedTrailingBackslash (s : Str) : Bool :=
  s.getLast? == some '\\' && trailingBackslashCount s % 2 == 1

/-- Fueled scanner behind `pyReplace` (fuel only bounds the recursion depth;
`pyReplace` always supplies enough). -/
def pyReplaceF : Nat → Str → Str → Str → Str
  | 0, s, _, _ => s
  | _ + 1, s, [], _ => s
  | _ + 1, [], _ :: _, _ => []
  | fuel + 1, c :: t, p :: ps, rep =>
    if (p :: ps).isPrefixOf (c :: t) then
      rep ++ pyReplaceF fuel (t.drop ps.length) (p :: ps) rep
    else
      c :: pyReplaceF fuel t (p :: ps) rep

/-- Python `str.replace(pat, rep)`: leftmost, non-overlapping, replace all.
(The degenerate empty pattern never occurs in the modelled code.) -/
def pyReplace (s pat rep : Str) : Str := pyReplaceF s.length s pat rep

theorem pyReplaceF_eq_pyReplace : ∀ (n : Nat) (s pat rep : Str), s.length ≤ n →
    ∀ fuel, s.length ≤ fuel → pyReplaceF fuel s pat rep = pyReplace s pat rep := by
  intro n
  induction n with
  | zero =>
    intro s pat rep hs fuel _
    have hs0 : s = [] := List.length_eq_zero.mp (Nat.le_zero.mp hs)
    subst hs0
    cases fuel with
    | zero => rfl
    | succ f => cases pat <;> rfl
  | succ n ih =>
    intro s pat rep hs fuel hf
    cases s with
    | nil =>
      cases fuel with
      | zero => rfl
      | succ f => cases pat <;> rfl
    | cons c t =>
      cases fuel with
      | zero => simp at hf
      | succ f =>
        cases pat with
        | nil => rfl
        | cons p ps =>
          show pyReplaceF (f + 1) (c :: t) (p :: ps) rep = pyReplaceF (t.length + 1) (c :: t) (p :: ps) rep
          rw [pyReplaceF, pyReplaceF]
          have hdrop : (t.drop ps.length).length ≤ t.length := by
            simp only [List.length_drop]; omega
          have ht : t.length ≤ n := by simp only [List.length_cons] at hs; omega
          split
          · rw [ih _ (p :: ps) rep (Nat.le_trans hdrop ht) f
                (by simp only [List.length_cons] at hf; omega),
              ih _ (p :: ps) rep (Nat.le_trans hdrop ht) t.length hdrop]
          · rw [ih t (p :: ps) rep ht f (by simp only [List.length_cons] at hf; omega),
              ih t (p :: ps) rep ht t.length (Nat.le_refl _)]

theorem pyReplace_nil_pat (s rep : Str) : pyReplace s [] rep = s := by
  cases s <;> rfl

theorem pyReplace_nil (pat rep : Str) : pyReplace [] pat rep = [] := by
  cases pat <;> rfl

theorem pyReplace_cons_pos (c : Char) (t : Str) (p : Char) (ps rep : Str)
    (h : (p :: ps).isPrefixOf (c :: t) = true) :
    pyReplace (c :: t) (p :: ps) rep = rep ++ pyReplace (t.drop ps.length) (p :: ps) rep := by
  show pyReplaceF (t.length + 1) (c :: t) (p :: ps) rep = _
  rw [pyReplaceF]
  simp only [h, if_true]
  rw [pyReplaceF_eq_pyReplace (t.drop ps.length).length _ _ rep (Nat.le_refl _) t.length
    (by simp only [List.length_drop]; omega)]

theorem pyReplace_cons_neg (c : Char) (t : Str) (p : Char) (ps rep : Str)
    (h : ¬(p :: ps).isPrefixOf (c :: t) = true) :
    pyReplace (c :: t) (p :: ps) rep = c :: pyReplace t (p :: ps) rep := by
  show pyReplaceF (t.length + 1) (c :: t) (p :: ps) rep = _
  rw [pyReplaceF]
  simp only [h, if_false]
  rfl

/-- Python `file.readlines()`: split the content into chunks, each chunk
keeping its terminating `'\n'`; a final chunk without a newline is kept. -/
def readlinesAux : Str → Str → List Str
  | [], acc => if acc.isEmpty then [] else [acc.reverse]
  | c :: t, acc =>
    if c == '\n' then (acc.reverse ++ ['\n']) :: readlinesAux t []
    else readlinesAux t (c :: acc)

def readlines (s : Str) : List Str := readlinesAux s []

/-- Ordered-dict assignment `m[k] = v`: update in place if present, else append. -/
def dictInsert (m : List (Str × Str)) (k v : Str) : List (Str × Str) :=
  if m.any (fun p => p.1 == k) then
    m.map (fun p => if p.1 == k then (k, v) else p)
  else m ++ [(k, v)]

/-- Dict lookup `m.get(k)`. -/
def dictGet? (m : List (Str × Str)) (k : Str) : Option Str :=
  (m.find? (fun p => p.1 == k)).map Prod.snd

/-- Dict lookup with default, `m.get(k, d)`. -/
def dictGetD (m : List (Str × Str)) (k : Str) (d : Str) : Str :=
  (dictGet? m k).getD d

/-- One parsed physical unit of a properties file
(`{'type': 'comment_or_blank', ...}` / `{'type': 'entry', ...}`). -/
inductive ParsedLine where
  | commentOrBlank (content : Str)
  | entry (key value original_value : Str) (line_number : Nat)
      (was_multiline : Bool) (separator_group : Str)
deriving DecidableEq

def ParsedLine.entryKey? : ParsedLine → Option Str
  | .commentOrBlank _ => none
  | .entry k _ _ _ _ _ => some k

def ParsedLine.isEntry : ParsedLine → Bool
  | .commentOrBlank _ => false
  | .entry .. => true

/-- Count of consecutive backslashes immediately before index `j` of `line`
(the inner `while` of the separator scan). -/
def backslashRunBefore (line : Str) (j : Nat) : Nat :=
  trailingBackslashCount (line.take j)

/-- The separator-scanning loop: index of the first `'='` or `':'` preceded by
an even number of consecutive backslashes. -/
def findSepIndex (line : Str) : Option Nat :=
  (List.range line.length).find?
    (fun j => isSepChar (line.getD j ' ') && backslashRunBefore line j % 2 == 0)

/-- Left end of the separator group: walk left over whitespace from `j`. -/
def sepGroupStart (line : Str) (j : Nat) : Nat :=
  j - ((line.take j).reverse.takeWhile isPySpace).length

/-- Right end of the separator group: walk right over whitespace from `j`. -/
def sepGroupEnd (line : Str) (j : Nat) : Nat :=
  j + ((line.drop (j + 1)).takeWhile isPySpace).length

/-- `re.sub(r'\\([:=\s])', r'\1', ·)`: unescape `\:`, `\=` and `\<space>` in keys. -/
def unescapeKey : Str → Str
  | [] => []
  | [c] => [c]
  | c :: d :: t =>
    if c == '\\' && (isSepChar d || isPySpace d) then d :: unescapeKey t
    else c :: unescapeKey (d :: t)

/-- Key of a line without separator:
`line.strip().replace(r'\=', '=').replace(r'\:', ':').replace(r'\\', '\\')`. -/
def noSepKey (line : Str) : Str :=
  pyReplace (pyReplace (pyReplace (pyStrip line)
    (chars "\\=") (chars "=")) (chars "\\:") (chars ":")) (chars "\\\\") (chars "\\")

/-- The multiline-continuation loop of `parse_properties_file`: while the value
ends in an odd number of backslashes, strip one backslash and append the next
physical line (left-stripped).  Returns the final value, the remaining lines,
the list of raw continuation lines consumed, and the `was_multiline` flag. -/
def consumeContinuations : Str → List Str → Str × List Str × List Str × Bool
  | value, [] =>
    if hasUnescapedTrailingBackslash value then (value.dropLast, [], [], true)
    else (value, [], [], false)
  | value, next :: rest' =>
    if hasUnescapedTrailingBackslash value then
      let nextLine := rstripNewlines next
      let r := consumeContinuations (value.dropLast ++ pyLStrip nextLine) rest'
      (r.1, r.2.1, nextLine :: r.2.2.1, true)
    else (value, next :: rest', [], false)

theorem consumeContinuations_rest_le (rest : List Str) :
    ∀ value : Str, (consumeContinuations value rest).2.1.length ≤ rest.length := by
  induction rest with
  | nil => intro value; rw [consumeContinuations]; split <;> simp
  | cons next rest' ih =>
    intro value
    rw [consumeContinuations]
    split
    · simpa using Nat.le_trans (ih _) (Nat.le_succ _)
    · simp

/-- No continuation is consumed when the value has no unescaped trailing
backslash. -/
theorem consumeContinuations_of_not (value : Str) (rest : List Str)
    (h : hasUnescapedTrailingBackslash value = false) :
    consumeContinuations value rest = (value, rest, [], false) := by
  cases rest <;> · rw [consumeContinuations]; simp [h]

/-- Fueled version of the main parsing loop (the fuel only bounds recursion
depth; `parseLinesAux` always supplies enough). -/
def parseLinesAuxF : Nat → List Str → Nat → List ParsedLine
  | 0, _, _ => []
  | _ + 1, [], _ => []
  | fuel + 1, l :: rest, i =>
    let line := rstripNewlines l
    let stripped := pyLStrip line
    if stripped.isEmpty || stripped.headD ' ' == '#' || stripped.headD ' ' == '!' then
      .commentOrBlank l :: parseLinesAuxF fuel rest (i + 1)
    else
      match findSepIndex line with
      | some j =>
        let startG := sepGroupStart line j
        let endG := sepGroupEnd line j
        let keyRaw := line.take startG
        let sepGroup := (line.take (endG + 1)).drop startG
        let value0 := line.drop (endG + 1)
        let key := unescapeKey (pyStrip keyRaw)
        let r := consumeContinuations value0 rest
        let consumed := rest.length - r.2.1.length
        .entry key r.1 (value0 ++ r.2.2.1.flatten) i r.2.2.2 sepGroup
          :: parseLinesAuxF fuel r.2.1 (i + 1 + consumed)
      | none =>
        let key := noSepKey line
        if key.isEmpty then
          .commentOrBlank l :: parseLinesAuxF fuel rest (i + 1)
        else
          .entry key [] [] i false ['='] :: parseLinesAuxF fuel rest (i + 1)

/-- The main loop of `parse_properties_file`, processing raw physical lines
(as produced by `readlines`), with `i` the current physical line index. -/
def parseLinesAux (ls : List Str) (i : Nat) : List ParsedLine :=
  parseLinesAuxF ls.length ls i

theorem parseLinesAuxF_eq_parseLinesAux : ∀ (n : Nat) (ls : List Str) (i : Nat),
    ls.length ≤ n → ∀ fuel, ls.length ≤ fuel →
    parseLinesAuxF fuel ls i = parseLinesAux ls i := by
  intro n
  induction n with
  | zero =>
    intro ls i hn fuel _
    have h0 : ls = [] := List.length_eq_zero.mp (Nat.le_zero.mp hn)
    subst h0
    cases fuel <;> rfl
  | succ n ih =>
    intro ls i hn fuel hf
    cases ls with
    | nil => cases fuel <;> rfl
    | cons l rest =>
      cases fuel with
      | zero => simp at hf
      | succ f =>
        show parseLinesAuxF (f + 1) (l :: rest) i
          = parseLinesAuxF (rest.length + 1) (l :: rest) i
        rw [parseLinesAuxF, parseLinesAuxF]
        dsimp only
        simp only [List.length_cons] at hn hf
        have hrest : rest.length ≤ n := by omega
        have hrf : rest.length ≤ f := by omega
        split
        · congr 1
          exact (ih rest (i + 1) hrest f hrf).trans
            (ih rest (i + 1) hrest rest.length (Nat.le_refl _)).symm
        · split
          · rename_i j hj
            have hc := consumeContinuations_rest_le rest
              ((rstripNewlines l).drop (sepGroupEnd (rstripNewlines l) j + 1))
            congr 1
            exact (ih _ _ (Nat.le_trans hc hrest) f (Nat.le_trans hc hrf)).trans
              (ih _ _ (Nat.le_trans hc hrest) _ hc).symm
          · split
            · congr 1
              exact (ih rest (i + 1) hrest f hrf).trans
                (ih rest (i + 1) hrest rest.length (Nat.le_refl _)).symm
            · congr 1
              exact (ih rest (i + 1) hrest f hrf).trans
                (ih rest (i + 1) hrest rest.length (Nat.le_refl _)).symm

theorem parseLinesAux_nil (i : Nat) : parseLinesAux [] i = [] := rfl

/-- Comment/blank step of the parsing loop. -/
theorem parseLinesAux_cons_comment (l : Str) (rest : List Str) (i : Nat)
    (h : ((pyLStrip (rstripNewlines l)).isEmpty
        || (pyLStrip (rstripNewlines l)).headD ' ' == '#'
        || (pyLStrip (rstripNewlines l)).headD ' ' == '!') = true) :
    parseLinesAux (l :: rest) i = .commentOrBlank l :: parseLinesAux rest (i + 1) := by
  show parseLinesAuxF (rest.length + 1) (l :: rest) i = _
  rw [parseLinesAuxF]
  dsimp only
  simp only [h, if_true]
  rfl

/-- Entry step of the parsing loop (separator found). -/
theorem parseLinesAux_cons_entry (l : Str) (rest : List Str) (i j : Nat)
    (h : ((pyLStrip (rstripNewlines l)).isEmpty
        || (pyLStrip (rstripNewlines l)).headD ' ' == '#'
        || (pyLStrip (rstripNewlines l)).headD ' ' == '!') = false)
    (hj : findSepIndex (rstripNewlines l) = some j) :
    parseLinesAux (l :: rest) i =
      (let line := rstripNewlines l
      let startG := sepGroupStart line j
      let endG := sepGroupEnd line j
      let value0 := line.drop (endG + 1)
      let r := consumeContinuations value0 rest
      .entry (unescapeKey (pyStrip (line.take startG))) r.1 (value0 ++ r.2.2.1.flatten) i
          r.2.2.2 ((line.take (endG + 1)).drop startG)
        :: parseLinesAux r.2.1 (i + 1 + (rest.length - r.2.1.length))) := by
  show parseLinesAuxF (rest.length + 1) (l :: rest) i = _
  rw [parseLinesAuxF]
  dsimp only
  simp only [h, Bool.false_eq_true, if_false, hj]
  congr 1
  have hc := consumeContinuations_rest_le rest
    ((rstripNewlines l).drop (sepGroupEnd (rstripNewlines l) j + 1))
  exact parseLinesAuxF_eq_parseLinesAux _ _ _ (Nat.le_refl _) rest.length hc

/-- No-separator entry step of the parsing loop. -/
theorem parseLinesAux_cons_nosep (l : Str) (rest : List Str) (i : Nat)
    (h : ((pyLStrip (rstripNewlines l)).isEmpty
        || (pyLStrip (rstripNewlines l)).headD ' ' == '#'
        || (pyLStrip (rstripNewlines l)).headD ' ' == '!') = false)
    (hj : findSepIndex (rstripNewlines l) = none)
    (hk : (noSepKey (rstripNewlines l)).isEmpty = false) :
    parseLinesAux (l :: rest) i =
      .entry (noSepKey (rstripNewlines l)) [] [] i false ['=']
        :: parseLinesAux rest (i + 1) := by
  show parseLinesAuxF (rest.length + 1) (l :: rest) i = _
  rw [parseLinesAuxF]
  dsimp only
  simp only [h, Bool.false_eq_true, if_false, hj, hk]
  rfl

/-- The translations dict accumulated by `parse_properties_file`
(`target_translations[key] = value`, in entry order). -/
def buildTranslations (pls : List ParsedLine) : List (Str × Str) :=
  pls.foldl
    (fun m pl =>
      match pl with
      | .entry k v _ _ _ _ => dictInsert m k v
      | .commentOrBlank _ => m)
    []

/-- `parse_properties_file`, over the file's content. -/
def parse_properties_file (content : Str) : List ParsedLine × List (Str × Str) :=
  let pls := parseLinesAux (readlines content) 0
  (pls, buildTranslations pls)

/-- Decidable substring test (used to model Python's `in` on strings). -/
def isSubstring (pat s : Str) : Bool :=
  (List.range (s.length + 1)).any (fun i => pat.isPrefixOf (s.drop i))

/-- `reassemble_file` from `properties_parser.py`. -/
def reassemble_file (pls : List ParsedLine) : Str :=
  (pls.map fun pl =>
    match pl with
    | .commentOrBlank content => content
    | .entry key value original_value _ was_multiline sepGroup =>
      if isSubstring (chars "\\n") original_value then
        key ++ sepGroup ++ pyReplace value ['\n'] (chars "\\n") ++ ['\n']
      else if value.contains '\n' || was_multiline then
        key ++ sepGroup ++ (List.intercalate (chars "\\\n") (value.splitOn '\n')) ++ ['\n']
      else
        key ++ sepGroup ++ value ++ ['\n']).flatten

/-! ## `translation_validator.py` -/

/-- `check_key_coverage`: `(missing, extra) = (base - target, target - base)`. -/
def check_key_coverage (base target : Finset Str) : Finset Str × Finset Str :=
  (base \ target, target \ base)

/-- Body scan of the regex `\{([^{}]+)\}`: collect non-brace characters after
an opening brace; succeed at `'}'` with a nonempty body. -/
def braceScan : Str → Str → Option (Str × Str)
  | [], _ => none
  | c :: t, acc =>
    if c == '}' then
      if acc.isEmpty then none else some (acc.reverse, t)
    else if c == '{' then none
    else braceScan t (c :: acc)

theorem braceScan_rest_lt (s : Str) :
    ∀ acc body rest, braceScan s acc = some (body, rest) → rest.length < s.length := by
  induction s with
  | nil => intro acc body rest h; simp [braceScan] at h
  | cons c t ih =>
    intro acc body rest h
    rw [braceScan] at h
    split at h
    · split at h
      · exact absurd h (by simp)
      · simp only [Option.some.injEq, Prod.mk.injEq] at h
        simp [← h.2]
    · split at h
      · exact absurd h (by simp)
      · exact Nat.lt_trans (ih _ _ _ h) (Nat.lt_succ_self _)

/-- Fueled scanner behind `findBracePlaceholders`. -/
def findBracePlaceholdersF : Nat → Str → List Str
  | 0, _ => []
  | _ + 1, [] => []
  | fuel + 1, c :: t =>
    if c == '{' then
      match braceScan t [] with
      | some (body, rest) => body :: findBracePlaceholdersF fuel rest
      | none => findBracePlaceholdersF fuel t
    else findBracePlaceholdersF fuel t

/-- `re.findall(r'\{([^{}]+)\}', s)`: all captured placeholder bodies,
leftmost non-overlapping. -/
def findBracePlaceholders (s : Str) : List Str := findBracePlaceholdersF s.length s

theorem findBracePlaceholdersF_eq : ∀ (n : Nat) (s : Str), s.length ≤ n →
    ∀ fuel, s.length ≤ fuel → findBracePlaceholdersF fuel s = findBracePlaceholders s := by
  intro n
  induction n with
  | zero =>
    intro s hn fuel _
    have h0 : s = [] := List.length_eq_zero.mp (Nat.le_zero.mp hn)
    subst h0
    cases fuel <;> rfl
  | succ n ih =>
    intro s hn fuel hf
    cases s with
    | nil => cases fuel <;> rfl
    | cons c t =>
      cases fuel with
      | zero => simp at hf
      | succ f =>
        show findBracePlaceholdersF (f + 1) (c :: t)
          = findBracePlaceholdersF (t.length + 1) (c :: t)
        rw [findBracePlaceholdersF, findBracePlaceholdersF]
        simp only [List.length_cons] at hn hf
        have ht : t.length ≤ n := by omega
        have htf : t.length ≤ f := by omega
        split
        · split
          · rename_i body rest hbr
            have hlt := braceScan_rest_lt t [] body rest hbr
            congr 1
            exact (ih rest (by omega) f (by omega)).trans
              (ih rest (by omega) t.length (by omega)).symm
          · exact (ih t ht f htf).trans (ih t ht t.length (Nat.le_refl _)).symm
        · exact (ih t ht f htf).trans (ih t ht t.length (Nat.le_refl _)).symm

theorem findBracePlaceholders_nil : findBracePlaceholders [] = [] := rfl

/-- One unfolding step of `findBracePlaceholders`. -/
theorem findBracePlaceholders_cons (c : Char) (t : Str) :
    findBracePlaceholders (c :: t) =
      (if c == '{' then
        match braceScan t [] with
        | some (body, rest) => body :: findBracePlaceholders rest
        | none => findBracePlaceholders t
      else findBracePlaceholders t) := by
  show findBracePlaceholdersF (t.length + 1) (c :: t) = _
  rw [findBracePlaceholdersF]
  split
  · split
    · rename_i body rest hbr
      have hlt := braceScan_rest_lt t [] body rest hbr
      congr 1
      exact findBracePlaceholdersF_eq rest.length rest (Nat.le_refl _) t.length (by omega)
    · rfl
  · rfl

/-- `Counter(l1) == Counter(l2)`: every element occurs equally often. -/
def counterEq (l1 l2 : List Str) : Bool :=
  (l1 ++ l2).all (fun x => l1.count x == l2.count x)

/-- `check_placeholder_parity` from `translation_validator.py`. -/
def check_placeholder_parity (base_string target_string : Str) : Bool :=
  counterEq (findBracePlaceholders base_string) (findBracePlaceholders target_string)

/-- Index (into a list of parsed lines) of the last entry carrying `k`
(Python's dict comprehensions keep the last occurrence). -/
def lastEntryIdx? (pls : List ParsedLine) (k : Str) : Option Nat :=
  (pls.enum.reverse.find? (fun p => p.2.entryKey? == some k)).map Prod.fst

/-- Last entry line carrying `k` (`source_entry_map`). -/
def lastEntry? (pls : List ParsedLine) (k : Str) : Option ParsedLine :=
  (pls.reverse.find? (fun l => l.entryKey? == some k))

/-- Index of the last occurrence of `k` in a key list (`source_index_map`). -/
def lastIdxOf (keys : List Str) (k : Str) : Option Nat :=
  (keys.enum.reverse.find? (fun p => p.2 == k)).map Prod.fst

/-- The first loop of `_find_insertion_index_for_missing_key`: the first key of
`keys` that has an index in the target map. -/
def findFirstExisting (tIdx : Str → Option Nat) : List Str → Option (Str × Nat)
  | [] => none
  | k :: rest =>
    match tIdx k with
    | some i => some (k, i)
    | none => findFirstExisting tIdx rest

/-- The backward `while` walk: decrement the index while the line before it is
not an entry. -/
def walkBackLoop (fin : List ParsedLine) : Nat → Nat
  | 0 => 0
  | i + 1 =>
    if (fin.getD i (.commentOrBlank [])).isEntry then i + 1
    else walkBackLoop fin i

/-- Fueled forward `while` walk. -/
def walkFwdLoopF (fin : List ParsedLine) : Nat → Nat → Nat
  | 0, i => i
  | fuel + 1, i =>
    if i < fin.length ∧ ¬(fin.getD i (.commentOrBlank [])).isEntry then
      walkFwdLoopF fin fuel (i + 1)
    else i

/-- The forward `while` walk: increment the index while it points at a
non-entry line. -/
def walkFwdLoop (fin : List ParsedLine) (i : Nat) : Nat :=
  walkFwdLoopF fin (fin.length - i) i

theorem walkFwdLoopF_eq : ∀ (fuel : Nat) (fin : List ParsedLine) (i : Nat),
    fin.length - i ≤ fuel → walkFwdLoopF fin fuel i = walkFwdLoop fin i := by
  intro fuel
  induction fuel with
  | zero =>
    intro fin i h
    have : ¬(i < fin.length) := by omega
    unfold walkFwdLoop
    have h2 : fin.length - i = 0 := by omega
    rw [h2]
  | succ fuel ih =>
    intro fin i h
    rw [walkFwdLoopF]
    split
    · rename_i hcond
      rw [ih fin (i + 1) (by omega)]
      unfold walkFwdLoop
      cases hd : fin.length - i with
      | zero => omega
      | succ d =>
        rw [walkFwdLoopF]
        simp only [hcond, if_true]
        have : fin.length - (i + 1) = d := by omega
        rw [← this]
        exact (ih fin (i + 1) (by omega)).symm.trans (ih fin (i + 1) (by omega))
    · rename_i hcond
      unfold walkFwdLoop
      cases hd : fin.length - i with
      | zero => rw [walkFwdLoopF]
      | succ d =>
        rw [walkFwdLoopF]
        simp only [hcond, if_false]

/-- `any(line.get('type') != 'entry' for line in pls[a:b])`. -/
def hasNonEntryBetween (pls : List ParsedLine) (a b : Nat) : Bool :=
  ((pls.drop a).take (b - a)).any (fun l => !l.isEntry)

/-- Python `list.insert` (clamps the index to the list length). -/
def pyListInsert (l : List ParsedLine) (i : Nat) (x : ParsedLine) : List ParsedLine :=
  l.insertIdx (min i l.length) x

/-- `_find_insertion_index_for_missing_key` from `translation_validator.py`. -/
def find_insertion_index_for_missing_key
    (key : Str) (source_key_order : List Str) (source_parsed_lines : List ParsedLine)
    (source_line_index_by_key : Str → Option Nat)
    (final_parsed_lines : List ParsedLine) : Nat :=
  let tIdx : Str → Option Nat := lastEntryIdx? final_parsed_lines
  let sourceIdx := (lastIdxOf source_key_order key).getD 0
  match findFirstExisting tIdx (source_key_order.drop (sourceIdx + 1)) with
  | some (nextKey, insertionIndex) =>
    let keyLineIdx := (source_line_index_by_key key).getD 0
    let nextKeyLineIdx := (source_line_index_by_key nextKey).getD 0
    if hasNonEntryBetween source_parsed_lines (keyLineIdx + 1) nextKeyLineIdx then
      walkBackLoop final_parsed_lines insertionIndex
    else insertionIndex
  | none =>
    match findFirstExisting tIdx (source_key_order.take sourceIdx).reverse with
    | some (prevKey, prevIdx) =>
      let insertionIndex := prevIdx + 1
      let prevKeyLineIdx := (source_line_index_by_key prevKey).getD 0
      let keyLineIdx := (source_line_index_by_key key).getD 0
      if hasNonEntryBetween source_parsed_lines (prevKeyLineIdx + 1) keyLineIdx then
        walkFwdLoop final_parsed_lines insertionIndex
      else insertionIndex
    | none => final_parsed_lines.length

/-- The entry inserted by `synchronize_keys` for a missing key. -/
def missingKeyEntry (key : Str) (source_translations : List (Str × Str))
    (source_parsed_lines : List ParsedLine) (insertionIndex : Nat) : ParsedLine :=
  match lastEntry? source_parsed_lines key with
  | some (.entry _ _ _ ln wm sg) =>
    .entry key (dictGetD source_translations key []) (dictGetD source_translations key []) ln wm sg
  | _ =>
    .entry key (dictGetD source_translations key []) (dictGetD source_translations key [])
      insertionIndex false ['=']

/-- The line list written by `synchronize_keys` (filter extra keys, then insert
every missing key in source order). -/
def synchronizeFinalLines (target_parsed_lines source_parsed_lines : List ParsedLine)
    (source_translations : List (Str × Str)) (missing extra : Finset Str) :
    List ParsedLine :=
  let final0 := target_parsed_lines.filter
    (fun l => match l.entryKey? with
      | some k => k ∉ extra
      | none => true)
  let sourceKeyOrder := source_parsed_lines.filterMap ParsedLine.entryKey?
  sourceKeyOrder.foldl
    (fun fin key =>
      if key ∈ missing then
        let idx := find_insertion_index_for_missing_key key sourceKeyOrder
          source_parsed_lines (lastEntryIdx? source_parsed_lines) fin
        pyListInsert fin idx (missingKeyEntry key source_translations source_parsed_lines idx)
      else fin)
    final0

/-- Key set of a translations dict. -/
def keysOf (m : List (Str × Str)) : Finset Str := (m.map Prod.fst).toFinset

/-- `synchronize_keys` from `translation_validator.py`, with the filesystem made
explicit: takes both file contents, returns `(missing, extra)` and the target
file's content after the call (unchanged when both sets are empty). -/
def synchronize_keys (targetContent sourceContent : Str) :
    Finset Str × Finset Str × Str :=
  let tp := parse_properties_file targetContent
  let sp := parse_properties_file sourceContent
  let me := check_key_coverage (keysOf sp.2) (keysOf tp.2)
  if me.1 = ∅ ∧ me.2 = ∅ then (me.1, me.2, targetContent)
  else
    (me.1, me.2,
      reassemble_file (synchronizeFinalLines tp.1 sp.1 sp.2 me.1 me.2))

/-! ## `translate_localization_files.py` -/

/-- State machine behind `collapseWs`; the flag records whether the previous
character was inside a whitespace run (whose single `' '` was already
emitted). -/
def collapseWsGo : Bool → Str → Str
  | _, [] => []
  | inRun, c :: t =>
    if isPySpace c then
      if inRun then collapseWsGo true t else ' ' :: collapseWsGo true t
    else c :: collapseWsGo false t

/-- `re.sub(r'\s+', ' ', ·)`: collapse every whitespace run to one space. -/
def collapseWs (s : Str) : Str := collapseWsGo false s

/-- `normalize_value`: unify `\n`-escape and literal newline to `<newline>`,
strip, and collapse internal whitespace. -/
def normalize_value : Option Str → Str
  | none => []
  | some value =>
    let v1 := pyReplace value (chars "\\n") (chars "<newline>")
    let v2 := pyReplace v1 ['\n'] (chars "<newline>")
    collapseWs (pyStrip v2)

/-- `compute_ledger_hash`, with the SHA-256 digest abstracted as a function
parameter (a pure function of the normalized text). -/
def compute_ledger_hash (digest : Str → Str) (value : Option Str) : Str :=
  digest (normalize_value value)

/-- JSON values, for the ledger payload. -/
inductive Json where
  | null
  | bool (b : Bool)
  | num (n : Int)
  | str (s : Str)
  | arr (elems : List Json)
  | obj (fields : List (Str × Json))

/-- Lookup of a field in a JSON object (`dict.get`). -/
def jsonGet? (fields : List (Str × Json)) (k : Str) : Option Json :=
  (fields.find? (fun p => p.1 == k)).map Prod.snd

/-- `load_translation_key_ledger`, with the filesystem and JSON decoding made
explicit: `none` = missing file; `some none` = unreadable file or JSON decode
error (the `except` path); `some (some payload)` = decoded payload.
Total (never raises); returns the `files` object's fields, or `[]`. -/
def load_translation_key_ledger : Option (Option Json) → List (Str × Json)
  | none => []
  | some none => []
  | some (some payload) =>
    match payload with
    | .obj fields =>
      match (jsonGet? fields (chars "files")).getD (.obj []) with
      | .obj fileFields => fileFields
      | _ => []
    | _ => []

/-- One ledger record for a key (only the fields the code reads). -/
structure LedgerEntry where
  source_hash : Option Str
  target_hash : Option Str
deriving DecidableEq

def ledgerGet? (m : List (Str × LedgerEntry)) (k : Str) : Option LedgerEntry :=
  (m.find? (fun p => p.1 == k)).map Prod.snd

/-- The per-line selection condition of `extract_texts_to_translate`
(`should_translate_existing`). -/
def shouldTranslateExisting (digest : Str → Str) (key targetValue : Str)
    (sourceValue : Str) (newly_added_keys : Finset Str)
    (file_ledger_entries : List (Str × LedgerEntry))
    (retranslate_identical_existing : Bool) : Bool :=
  let is_source_identical := pyStrip sourceValue == pyStrip targetValue
  let previous_source_hash := (ledgerGet? file_ledger_entries key).bind (·.source_hash)
  let current_source_hash := compute_ledger_hash digest (some sourceValue)
  let should_translate_newly_added := key ∈ newly_added_keys
  let should_translate_legacy_mode := is_source_identical && retranslate_identical_existing
  let should_translate_changed_source :=
    match previous_source_hash with
    | some p => p != current_source_hash
    | none => false
  should_translate_newly_added || should_translate_legacy_mode
    || should_translate_changed_source

/-- Lexicographic (code-point) order on strings, as used by Python `sorted`. -/
def strLe (a b : Str) : Bool :=
  match a, b with
  | [], _ => true
  | _ :: _, [] => false
  | c :: a', d :: b' => if c = d then strLe a' b' else decide (c < d)

/-- `extract_texts_to_translate`, with the digest abstracted.  Returns
`(texts_to_translate, indices, keys_to_translate)`. -/
def extract_texts_to_translate (digest : Str → Str)
    (parsed_lines : List ParsedLine)
    (source_translations _target_translations : List (Str × Str))
    (newly_added_keys : Finset Str)
    (file_ledger_entries : List (Str × LedgerEntry))
    (retranslate_identical_existing : Bool) :
    List Str × List Nat × List Str :=
  let phase1 : List (Str × Nat × Str) :=
    parsed_lines.enum.filterMap (fun p =>
      match p.2 with
      | .commentOrBlank _ => none
      | .entry key targetValue _ _ _ _ =>
        match dictGet? source_translations key with
        | none => none
        | some sourceValue =>
          if shouldTranslateExisting digest key targetValue sourceValue
              newly_added_keys file_ledger_entries retranslate_identical_existing then
            some (sourceValue, p.1, key)
          else none)
  let existingKeys : Finset Str :=
    (parsed_lines.filterMap ParsedLine.entryKey?).toFinset
  let newKeys : List Str :=
    ((source_translations.map Prod.fst).filter (fun k => k ∉ existingKeys)).dedup
  let sortedNew := newKeys.mergeSort strLe
  let phase2 : List (Str × Nat × Str) :=
    sortedNew.enum.map (fun p =>
      (dictGetD source_translations p.2 [], parsed_lines.length + p.1, p.2))
  ((phase1 ++ phase2).map (·.1), (phase1 ++ phase2).map (·.2.1),
    (phase1 ++ phase2).map (·.2.2))

/-- `run_per_key_validation`: validate each key's placeholder parity, keep
passing translations, revert failing keys to the source value, collect the
failing keys. -/
def run_per_key_validation (final_translations source_translations : List (Str × Str)) :
    List (Str × Str) × List Str :=
  final_translations.foldl
    (fun acc kv =>
      let source_value := dictGetD source_translations kv.1 []
      if check_placeholder_parity source_value kv.2 then
        (dictInsert acc.1 kv.1 kv.2, acc.2)
      else
        (dictInsert acc.1 kv.1 source_value, acc.2 ++ [kv.1]))
    ([], [])

/-- Body scan shared by the two branches of the protection regex
`(<[^<>]+>)|({[^{}]+})`: collect characters other than the two delimiters,
succeed at the closing delimiter with a nonempty body. -/
def scanDelim (openc closec : Char) : Str → Str → Option (Str × Str)
  | [], _ => none
  | c :: t, acc =>
    if c == closec then
      if acc.isEmpty then none else some (acc.reverse, t)
    else if c == openc then none
    else scanDelim openc closec t (c :: acc)

theorem scanDelim_rest_lt (openc closec : Char) (s : Str) :
    ∀ acc body rest, scanDelim openc closec s acc = some (body, rest) →
      rest.length < s.length := by
  induction s with
  | nil => intro acc body rest h; simp [scanDelim] at h
  | cons c t ih =>
    intro acc body rest h
    rw [scanDelim] at h
    split at h
    · split at h
      · exact absurd h (by simp)
      · simp only [Option.some.injEq, Prod.mk.injEq] at h
        simp [← h.2]
    · split at h
      · exact absurd h (by simp)
      · exact Nat.lt_trans (ih _ _ _ h) (Nat.lt_succ_self _)

/-- The generated replacement token (`f"__PH_{uuid.uuid4().hex}__"`), with the
random hex core supplied by a generator. -/
def phToken (core : Str) : Str := chars "__PH_" ++ core ++ chars "__"

/-- Fueled scanner behind `extractGo`. -/
def extractGoF (gen : Nat → Str) : Nat → Nat → Str → Str × List (Str × Str)
  | 0, _, _ => ([], [])
  | _ + 1, _, [] => ([], [])
  | fuel + 1, n, c :: t =>
    if c == '<' then
      match scanDelim '<' '>' t [] with
      | some (body, rest) =>
        let tok := phToken (gen n)
        let r := extractGoF gen fuel (n + 1) rest
        (tok ++ r.1, (tok, '<' :: (body ++ ['>'])) :: r.2)
      | none =>
        let r := extractGoF gen fuel n t
        (c :: r.1, r.2)
    else if c == '{' then
      match scanDelim '{' '}' t [] with
      | some (body, rest) =>
        let tok := phToken (gen n)
        let r := extractGoF gen fuel (n + 1) rest
        (tok ++ r.1, (tok, '{' :: (body ++ ['}'])) :: r.2)
      | none =>
        let r := extractGoF gen fuel n t
        (c :: r.1, r.2)
    else
      let r := extractGoF gen fuel n t
      (c :: r.1, r.2)

/-- The scanning loop of `pattern.sub(replace_placeholder, text)`: each match
of a `<...>` tag or `{...}` placeholder is replaced by a fresh token; `gen n`
is the hex core of the `n`-th generated token.  Returns the processed text and
the `token -> matched substring` mapping in match order. -/
def extractGo (gen : Nat → Str) (n : Nat) (s : Str) : Str × List (Str × Str) :=
  extractGoF gen s.length n s

theorem extractGoF_eq (gen : Nat → Str) : ∀ (m : Nat) (s : Str) (n : Nat),
    s.length ≤ m → ∀ fuel, s.length ≤ fuel →
    extractGoF gen fuel n s = extractGo gen n s := by
  intro m
  induction m with
  | zero =>
    intro s n hm fuel _
    have h0 : s = [] := List.length_eq_zero.mp (Nat.le_zero.mp hm)
    subst h0
    cases fuel <;> rfl
  | succ m ih =>
    intro s n hm fuel hf
    cases s with
    | nil => cases fuel <;> rfl
    | cons c t =>
      cases fuel with
      | zero => simp at hf
      | succ f =>
        show extractGoF gen (f + 1) n (c :: t) = extractGoF gen (t.length + 1) n (c :: t)
        rw [extractGoF, extractGoF]
        dsimp only
        simp only [List.length_cons] at hm hf
        have ht : t.length ≤ m := by omega
        have htf : t.length ≤ f := by omega
        split
        · split
          · rename_i body rest hbr
            have hlt := scanDelim_rest_lt '<' '>' t [] body rest hbr
            rw [ih rest (n + 1) (by omega) f (by omega),
              ih rest (n + 1) (by omega) t.length (by omega)]
          · rw [ih t n ht f htf, ih t n ht t.length (Nat.le_refl _)]
        · split
          · split
            · rename_i body rest hbr
              have hlt := scanDelim_rest_lt '{' '}' t [] body rest hbr
              rw [ih rest (n + 1) (by omega) f (by omega),
                ih rest (n + 1) (by omega) t.length (by omega)]
            · rw [ih t n ht f htf, ih t n ht t.length (Nat.le_refl _)]
          · rw [ih t n ht f htf, ih t n ht t.length (Nat.le_refl _)]

theorem extractGo_nil (gen : Nat → Str) (n : Nat) : extractGo gen n [] = ([], []) := rfl

/-- One unfolding step of `extractGo`. -/
theorem extractGo_cons (gen : Nat → Str) (n : Nat) (c : Char) (t : Str) :
    extractGo gen n (c :: t) =
      (if c == '<' then
        match scanDelim '<' '>' t [] with
        | some (body, rest) =>
          let tok := phToken (gen n)
          let r := extractGo gen (n + 1) rest
          (tok ++ r.1, (tok, '<' :: (body ++ ['>'])) :: r.2)
        | none =>
          let r := extractGo gen n t
          (c :: r.1, r.2)
      else if c == '{' then
        match scanDelim '{' '}' t [] with
        | some (body, rest) =>
          let tok := phToken (gen n)
          let r := extractGo gen (n + 1) rest
          (tok ++ r.1, (tok, '{' :: (body ++ ['}'])) :: r.2)
        | none =>
          let r := extractGo gen n t
          (c :: r.1, r.2)
      else
        let r := extractGo gen n t
        (c :: r.1, r.2)) := by
  show extractGoF gen (t.length + 1) n (c :: t) = _
  rw [extractGoF]
  dsimp only
  split
  · split
    · rename_i body rest hbr
      have hlt := scanDelim_rest_lt '<' '>' t [] body rest hbr
      rw [extractGoF_eq gen rest.length rest (n + 1) (Nat.le_refl _) t.length (by omega)]
    · rw [extractGoF_eq gen t.length t n (Nat.le_refl _) t.length (Nat.le_refl _)]
  · split
    · split
      · rename_i body rest hbr
        have hlt := scanDelim_rest_lt '{' '}' t [] body rest hbr
        rw [extractGoF_eq gen rest.length rest (n + 1) (Nat.le_refl _) t.length (by omega)]
      · rw [extractGoF_eq gen t.length t n (Nat.le_refl _) t.length (Nat.le_refl _)]
    · rw [extractGoF_eq gen t.length t n (Nat.le_refl _) t.length (Nat.le_refl _)]

/-- `extract_placeholders`, with the uuid stream abstracted as `gen`. -/
def extract_placeholders (gen : Nat → Str) (text : Str) : Str × List (Str × Str) :=
  extractGo gen 0 text

/-- `restore_placeholders`: replace each token by its original substring, in
mapping (= match) order. -/
def restore_placeholders (text : Str) (placeholder_mapping : List (Str × Str)) : Str :=
  placeholder_mapping.foldl (fun s p => pyReplace s p.1 p.2) text

/-! ## General helper lemmas -/

theorem find?_range_iff : ∀ (n : Nat) (p : Nat → Bool) (j : Nat),
    (List.range n).find? p = some j ↔
      j < n ∧ p j = true ∧ ∀ i < j, p i = false := by
  intro n
  induction n with
  | zero =>
    intro p j
    simp [List.range_zero, List.find?]
  | succ n ih =>
    intro p j
    rw [List.range_succ_eq_map]
    cases hp : p 0 with
    | true =>
      simp only [List.find?, hp]
      constructor
      · intro h
        injection h with h
        subst h
        exact ⟨Nat.succ_pos _, hp, fun i hi => absurd hi (Nat.not_lt_zero _)⟩
      · rintro ⟨_, _, hmin⟩
        match j with
        | 0 => rfl
        | j' + 1 => exact absurd hp (by simp [hmin 0 (Nat.succ_pos _)])
    | false =>
      simp only [List.find?, hp, List.find?_map]
      constructor
      · intro h
        rw [Option.map_eq_some'] at h
        obtain ⟨j', hj', rfl⟩ := h
        obtain ⟨h1, h2, h3⟩ := (ih (p ∘ Nat.succ) j').mp hj'
        refine ⟨Nat.succ_lt_succ h1, h2, ?_⟩
        intro i hi
        match i with
        | 0 => exact hp
        | i' + 1 => exact h3 i' (Nat.lt_of_succ_lt_succ hi)
      · rintro ⟨h1, h2, h3⟩
        match j with
        | 0 => exact absurd h2 (by simp [hp])
        | j' + 1 =>
          rw [Option.map_eq_some']
          refine ⟨j', (ih (p ∘ Nat.succ) j').mpr
            ⟨Nat.lt_of_succ_lt_succ h1, h2, ?_⟩, rfl⟩
          intro i hi
          exact h3 (i + 1) (Nat.succ_lt_succ hi)

/-- `List.count` does not depend on which lawful `BEq` instance is used. -/
theorem count_instance_eq (a : Str) (l : List Str) :
    @List.count Str List.instBEq a l = @List.count Str instBEqOfDecidableEq a l := by
  induction l with
  | nil => rfl
  | cons b t ih =>
    rw [@List.count_cons Str List.instBEq, @List.count_cons Str instBEqOfDecidableEq, ih]
    by_cases hba : b = a
    · simp [hba]
    · simp [hba]

theorem counterEq_iff (l1 l2 : List Str) :
    counterEq l1 l2 = true ↔
      (↑l1 : Multiset Str) = (↑l2 : Multiset Str) := by
  rw [Multiset.coe_eq_coe, List.perm_iff_count]
  unfold counterEq
  rw [List.all_eq_true]
  constructor
  · intro h a
    rw [← count_instance_eq, ← count_instance_eq]
    by_cases ha : a ∈ l1 ++ l2
    · have := h a ha
      simpa using this
    · rw [List.mem_append] at ha
      push_neg at ha
      rw [List.count_eq_zero_of_not_mem ha.1, List.count_eq_zero_of_not_mem ha.2]
  · intro h x _
    have := h x
    rw [← count_instance_eq, ← count_instance_eq] at this
    simpa using this

/-! ## C2: first unescaped separator -/

/-- Characterization of the separator scan. -/
theorem findSepIndex_iff (line : Str) (j : Nat) :
    findSepIndex line = some j ↔
      j < line.length ∧ isSepChar (line.getD j ' ') = true ∧
        backslashRunBefore line j % 2 = 0 ∧
        ∀ i < j, ¬(isSepChar (line.getD i ' ') = true ∧
          backslashRunBefore line i % 2 = 0) := by
  rw [findSepIndex, find?_range_iff]
  constructor
  · rintro ⟨h1, h2, h3⟩
    rw [Bool.and_eq_true] at h2
    refine ⟨h1, h2.1, by simpa using h2.2, ?_⟩
    intro i hi hcon
    have hfalse := h3 i hi
    rw [hcon.1, Bool.true_and] at hfalse
    simp [hcon.2] at hfalse
  · rintro ⟨h1, h2, h3, h4⟩
    refine ⟨h1, ?_, ?_⟩
    · rw [h2, Bool.true_and]
      simpa using h3
    · intro i hi
      by_cases hs : isSepChar (line.getD i ' ') = true
      · by_cases hr : backslashRunBefore line i % 2 = 0
        · exact absurd ⟨hs, hr⟩ (h4 i hi)
        · rw [hs, Bool.true_and]
          simpa using hr
      · rw [Bool.not_eq_true] at hs
        rw [hs, Bool.false_and]

/-- **C2.** `findSepIndex` (the separator scan of `parse_properties_file`)
returns `j` exactly when `j` is the first index of the line holding `'='` or
`':'` preceded by an even number of consecutive backslashes; every earlier
candidate separator (odd backslash run) is skipped.  Consequently the line
`a\=b=c` parses as the single key `a=b` (one entry, not split at the escaped
`=`). -/
theorem findSepIndex_first_even_parity :
    (∀ (line : Str) (j : Nat),
      findSepIndex line = some j ↔
        j < line.length ∧ isSepChar (line.getD j ' ') = true ∧
          backslashRunBefore line j % 2 = 0 ∧
          ∀ i < j, ¬(isSepChar (line.getD i ' ') = true ∧
            backslashRunBefore line i % 2 = 0)) ∧
    (parse_properties_file (chars "a\\=b=c\n")).1 =
      [.entry (chars "a=b") (chars "c") (chars "c") 0 false ['=']] := by
  exact ⟨findSepIndex_iff, by decide⟩

/-! ## C5: placeholder parity is multiset-based -/

/-- **C5.** `check_placeholder_parity base target` returns `true` exactly when
the multisets of `{...}` placeholders extracted by the regex `\{([^{}]+)\}`
(represented by their brace-free bodies, which are in bijection with the
matched substrings) agree between the two strings — repetition counts, order
does not; in particular reordering passes, duplication fails and a different
placeholder identity fails. -/
theorem check_placeholder_parity_multiset :
    (∀ b t : Str, check_placeholder_parity b t = true ↔
      (↑(findBracePlaceholders b) : Multiset Str) = ↑(findBracePlaceholders t)) ∧
    check_placeholder_parity (chars "A \x7b0\x7d B \x7b1\x7d")
      (chars "B \x7b1\x7d A \x7b0\x7d") = true ∧
    check_placeholder_parity (chars "A \x7b0\x7d")
      (chars "A \x7b0\x7d \x7b0\x7d") = false ∧
    check_placeholder_parity (chars "\x7b0\x7d") (chars "\x7bname\x7d") = false := by
  refine ⟨fun b t => ?_, by decide, by decide, by decide⟩
  exact counterEq_iff _ _

/-! ## C4: per-key validation -/

theorem dictInsert_append (m : List (Str × Str)) (k v : Str)
    (h : k ∉ m.map Prod.fst) : dictInsert m k v = m ++ [(k, v)] := by
  unfold dictInsert
  have : m.any (fun p => p.1 == k) = false := by
    rw [← Bool.not_eq_true, List.any_eq_true]
    rintro ⟨p, hp, hpk⟩
    exact h (List.mem_map.mpr ⟨p, hp, by simpa using hpk⟩)
  rw [this]
  simp

theorem run_per_key_validation_foldl (source : List (Str × Str)) :
    ∀ (l : List (Str × Str)) (acc : List (Str × Str) × List Str),
    (acc.1.map Prod.fst ++ l.map Prod.fst).Nodup →
    l.foldl
      (fun acc kv =>
        let source_value := dictGetD source kv.1 []
        if check_placeholder_parity source_value kv.2 then
          (dictInsert acc.1 kv.1 kv.2, acc.2)
        else
          (dictInsert acc.1 kv.1 source_value, acc.2 ++ [kv.1])) acc =
      (acc.1 ++ l.map (fun kv =>
          (kv.1, if check_placeholder_parity (dictGetD source kv.1 []) kv.2 then kv.2
                 else dictGetD source kv.1 [])),
        acc.2 ++ (l.filter
          (fun kv => !check_placeholder_parity (dictGetD source kv.1 []) kv.2)).map Prod.fst) := by
  intro l
  induction l with
  | nil => intro acc _; simp
  | cons kv l' ih =>
    intro acc hnd
    have hk : kv.1 ∉ acc.1.map Prod.fst := by
      simp only [List.map_cons, List.nodup_append] at hnd
      intro hmem
      exact hnd.2.2 hmem (List.mem_cons_self _ _)
    rw [List.foldl_cons]
    dsimp only
    cases hpar : check_placeholder_parity (dictGetD source kv.1 []) kv.2 with
    | true =>
      rw [if_pos rfl]
      rw [ih (dictInsert acc.1 kv.1 kv.2, acc.2)
        (by
          rw [dictInsert_append _ _ _ hk]
          simp only [List.map_cons, List.map_append, List.map_cons, List.map_nil] at hnd ⊢
          simpa [List.append_assoc] using hnd)]
      rw [dictInsert_append _ _ _ hk]
      simp [hpar, List.append_assoc]
    | false =>
      rw [if_neg (by simp)]
      rw [ih (dictInsert acc.1 kv.1 (dictGetD source kv.1 []), acc.2 ++ [kv.1])
        (by
          rw [dictInsert_append _ _ _ hk]
          simp only [List.map_cons, List.map_append, List.map_cons, List.map_nil] at hnd ⊢
          simpa [List.append_assoc] using hnd)]
      rw [dictInsert_append _ _ _ hk]
      simp [hpar, List.append_assoc]

/-- **C4.** `run_per_key_validation` returns a map on exactly the input's keys
(in order); every key whose translation passes placeholder parity against its
source value keeps its translated value, every failing key is mapped to its
source value, and `failed_keys` is exactly the list of failing keys. -/
theorem run_per_key_validation_spec (final_translations source_translations : List (Str × Str))
    (hnd : (final_translations.map Prod.fst).Nodup) :
    ((run_per_key_validation final_translations source_translations).1.map Prod.fst
        = final_translations.map Prod.fst) ∧
    (run_per_key_validation final_translations source_translations).1 =
      final_translations.map (fun kv =>
        (kv.1,
          if check_placeholder_parity (dictGetD source_translations kv.1 []) kv.2 then kv.2
          else dictGetD source_translations kv.1 [])) ∧
    (run_per_key_validation final_translations source_translations).2 =
      (final_translations.filter
        (fun kv => !check_placeholder_parity (dictGetD source_translations kv.1 []) kv.2)).map
        Prod.fst := by
  have h := run_per_key_validation_foldl source_translations final_translations ([], [])
    (by simpa using hnd)
  unfold run_per_key_validation
  rw [h]
  refine ⟨?_, by simp, by simp⟩
  simp [List.map_map]

/-- A 10-key example map in which only `k05` carries a placeholder mismatch. -/
def tenKeyFinal : List (Str × Str) :=
  [(chars "k01", chars "v1"), (chars "k02", chars "v2"), (chars "k03", chars "v3"),
   (chars "k04", chars "v4"), (chars "k05", chars "v5"), (chars "k06", chars "v6"),
   (chars "k07", chars "v7"), (chars "k08", chars "v8"), (chars "k09", chars "v9"),
   (chars "k10", chars "v10")]

def tenKeySource : List (Str × Str) := [(chars "k05", chars "Hello \x7b0\x7d")]

theorem run_per_key_validation_spec_witness :
    (tenKeyFinal.map Prod.fst).Nodup ∧
    (((run_per_key_validation tenKeyFinal tenKeySource).1.map Prod.fst
        = tenKeyFinal.map Prod.fst) ∧
      (run_per_key_validation tenKeyFinal tenKeySource).1 =
        tenKeyFinal.map (fun kv =>
          (kv.1,
            if check_placeholder_parity (dictGetD tenKeySource kv.1 []) kv.2 then kv.2
            else dictGetD tenKeySource kv.1 [])) ∧
      (run_per_key_validation tenKeyFinal tenKeySource).2 =
        (tenKeyFinal.filter
          (fun kv => !check_placeholder_parity (dictGetD tenKeySource kv.1 []) kv.2)).map
          Prod.fst) :=
  ⟨by decide, run_per_key_validation_spec tenKeyFinal tenKeySource (by decide)⟩

/-! ## C7: ledger hash stability -/

/-- **C7.** `compute_ledger_hash` digests only the normalized form (escaped
`\n` and literal newline unified to `<newline>`, whitespace runs collapsed
after trimming), so any two values with the same normalization hash
identically; in particular the hash of `"a\nb"` (3 characters, literal
newline) equals the hash of `"a\\nb"` (4 characters, escaped newline), for
every digest function. -/
theorem compute_ledger_hash_normalizes :
    (∀ (digest : Str → Str) (s t : Option Str),
      normalize_value s = normalize_value t →
      compute_ledger_hash digest s = compute_ledger_hash digest t) ∧
    ∀ digest : Str → Str,
      compute_ledger_hash digest (some (chars "a\nb")) =
        compute_ledger_hash digest (some (chars "a\\nb")) := by
  constructor
  · intro digest s t h
    unfold compute_ledger_hash
    rw [h]
  · intro digest
    unfold compute_ledger_hash
    exact congrArg digest (by decide)

theorem compute_ledger_hash_normalizes_witness :
    compute_ledger_hash (fun s => s) (some (chars "a\nb")) =
      compute_ledger_hash (fun s => s) (some (chars "a\\nb")) :=
  compute_ledger_hash_normalizes.1 (fun s => s) _ _ (by decide)

/-! ## C9: ledger load never raises -/

/-- **C9.** `load_translation_key_ledger` is total (the model of a function
that never raises): a missing file, an unreadable/undecodable file, a payload
that is not a JSON object, or a `files` field that is not an object all yield
the empty ledger; a payload whose `files` field is an object yields exactly
that object's fields (and a payload without a `files` field yields the empty
default). -/
theorem load_translation_key_ledger_fallback :
    load_translation_key_ledger none = [] ∧
    load_translation_key_ledger (some none) = [] ∧
    load_translation_key_ledger (some (some .null)) = [] ∧
    (∀ b, load_translation_key_ledger (some (some (.bool b))) = []) ∧
    (∀ n, load_translation_key_ledger (some (some (.num n))) = []) ∧
    (∀ s, load_translation_key_ledger (some (some (.str s))) = []) ∧
    (∀ l, load_translation_key_ledger (some (some (.arr l))) = []) ∧
    (∀ fields, jsonGet? fields (chars "files") = none →
      load_translation_key_ledger (some (some (.obj fields))) = []) ∧
    (∀ fields j, jsonGet? fields (chars "files") = some j → (∀ g, j ≠ .obj g) →
      load_translation_key_ledger (some (some (.obj fields))) = []) ∧
    (∀ fields f, jsonGet? fields (chars "files") = some (.obj f) →
      load_translation_key_ledger (some (some (.obj fields))) = f) := by
  refine ⟨rfl, rfl, rfl, fun b => rfl, fun n => rfl, fun s => rfl, fun l => rfl,
    ?_, ?_, ?_⟩
  · intro fields h
    show (match (jsonGet? fields (chars "files")).getD (Json.obj []) with
      | Json.obj fileFields => fileFields
      | _ => []) = []
    rw [h]
    rfl
  · intro fields j h hj
    show (match (jsonGet? fields (chars "files")).getD (Json.obj []) with
      | Json.obj fileFields => fileFields
      | _ => []) = []
    rw [h]
    cases j with
    | obj g => exact absurd rfl (hj g)
    | null => rfl
    | bool b => rfl
    | num n => rfl
    | str s => rfl
    | arr l => rfl
  · intro fields f h
    show (match (jsonGet? fields (chars "files")).getD (Json.obj []) with
      | Json.obj fileFields => fileFields
      | _ => []) = f
    rw [h]
    rfl

theorem load_translation_key_ledger_fallback_witness :
    load_translation_key_ledger
      (some (some (.obj [(chars "files", Json.obj [(chars "a", Json.null)])]))) =
      [(chars "a", Json.null)] :=
  load_translation_key_ledger_fallback.2.2.2.2.2.2.2.2.2
    [(chars "files", Json.obj [(chars "a", Json.null)])] [(chars "a", Json.null)] rfl

/-! ## C6: selection of texts to translate -/

theorem shouldTranslateExisting_iff (digest : Str → Str) (k tv sv : Str)
    (newly : Finset Str) (ledger : List (Str × LedgerEntry)) (retr : Bool) :
    shouldTranslateExisting digest k tv sv newly ledger retr = true ↔
      (k ∈ newly ∨ (retr = true ∧ pyStrip sv = pyStrip tv) ∨
        ∃ p, (ledgerGet? ledger k).bind (fun e => e.source_hash) = some p ∧
          p ≠ compute_ledger_hash digest (some sv)) := by
  unfold shouldTranslateExisting
  dsimp only
  cases hp : (ledgerGet? ledger k).bind (fun e => e.source_hash) with
  | none =>
    simp [Bool.or_eq_true, Bool.and_eq_true, beq_iff_eq, and_comm]
  | some p =>
    simp only [Bool.or_eq_true, Bool.and_eq_true, beq_iff_eq, bne_iff_ne, decide_eq_true_eq,
      Option.some.injEq, ne_eq, exists_eq_left']
    rw [or_assoc]
    constructor
    · rintro (h | h | h)
      · exact Or.inl h
      · exact Or.inr (Or.inl ⟨h.2, h.1⟩)
      · exact Or.inr (Or.inr h)
    · rintro (h | h | h)
      · exact Or.inl h
      · exact Or.inr (Or.inl ⟨h.2, h.1⟩)
      · exact Or.inr (Or.inr h)

/-- **C6.** In `extract_texts_to_translate`, an existing entry line `i` of the
parsed target whose key is present in the source map is selected for
translation (its index appears in the returned `indices`) if and only if the
key was newly added, or the legacy retranslate-identical mode is on and the
stripped source and target values agree, or the ledger records a
`source_hash` different from the hash of the current source value.  In
particular a key with no ledger entry whose target equals the source (not
newly added, legacy mode off) is skipped. -/
theorem extract_texts_selection (digest : Str → Str) (parsed_lines : List ParsedLine)
    (source_translations target_translations : List (Str × Str))
    (newly_added_keys : Finset Str) (file_ledger_entries : List (Str × LedgerEntry))
    (retr : Bool) (i : Nat) (k v ov : Str) (ln : Nat) (wm : Bool) (sg : Str)
    (hline : parsed_lines[i]? = some (.entry k v ov ln wm sg))
    (sv : Str) (hsv : dictGet? source_translations k = some sv) :
    i ∈ (extract_texts_to_translate digest parsed_lines source_translations
        target_translations newly_added_keys file_ledger_entries retr).2.1 ↔
      (k ∈ newly_added_keys ∨
        (retr = true ∧ pyStrip sv = pyStrip v) ∨
        ∃ p, (ledgerGet? file_ledger_entries k).bind (fun e => e.source_hash) = some p ∧
          p ≠ compute_ledger_hash digest (some sv)) := by
  have hilen : i < parsed_lines.length := by
    rw [← List.get?_eq_getElem?] at hline
    exact List.get?_eq_some.mp hline |>.1
  rw [← shouldTranslateExisting_iff digest k v sv newly_added_keys file_ledger_entries retr]
  unfold extract_texts_to_translate
  dsimp only
  rw [List.map_append, List.mem_append]
  constructor
  · rintro (h1 | h2)
    · rw [List.mem_map] at h1
      obtain ⟨x, hx, hxi⟩ := h1
      rw [List.mem_filterMap] at hx
      obtain ⟨⟨idx, line⟩, hmem, hf⟩ := hx
      cases line with
      | commentOrBlank c => simp at hf
      | entry k' v' ov' ln' wm' sg' =>
        dsimp only at hf
        cases hsv' : dictGet? source_translations k' with
        | none => rw [hsv'] at hf; simp at hf
        | some sv' =>
          rw [hsv'] at hf
          dsimp only at hf
          by_cases hshould : shouldTranslateExisting digest k' v' sv'
              newly_added_keys file_ledger_entries retr = true
          · rw [if_pos hshould] at hf
            injection hf with hf
            subst hf
            dsimp only at hxi
            subst hxi
            have : parsed_lines[idx]? = some (.entry k' v' ov' ln' wm' sg') :=
              List.mk_mem_enum_iff_getElem?.mp hmem
            rw [this] at hline
            injection hline with hline
            injection hline with e1 e2 e3 e4 e5 e6
            subst e1; subst e2
            rw [hsv'] at hsv
            injection hsv with hsv
            subst hsv
            exact hshould
          · rw [if_neg hshould] at hf
            simp at hf
    · exfalso
      rw [List.mem_map] at h2
      obtain ⟨x, hx, hxi⟩ := h2
      rw [List.mem_map] at hx
      obtain ⟨⟨o, key⟩, _, hox⟩ := hx
      subst hox
      dsimp only at hxi
      omega
  · intro hshould
    left
    rw [List.mem_map]
    refine ⟨(sv, i, k), ?_, rfl⟩
    rw [List.mem_filterMap]
    refine ⟨(i, .entry k v ov ln wm sg), List.mk_mem_enum_iff_getElem?.mpr hline, ?_⟩
    dsimp only
    rw [hsv]
    dsimp only
    rw [if_pos hshould]

theorem extract_texts_selection_witness :
    ¬(0 ∈ (extract_texts_to_translate (fun s => s)
        [.entry (chars "k") (chars "Hello") (chars "Hello") 0 false ['=']]
        [(chars "k", chars "Hello")] [] ∅ [] false).2.1) := by
  intro hmem
  have h := extract_texts_selection (fun s => s)
    [.entry (chars "k") (chars "Hello") (chars "Hello") 0 false ['=']]
    [(chars "k", chars "Hello")] [] ∅ [] false 0
    (chars "k") (chars "Hello") (chars "Hello") 0 false ['=']
    rfl (chars "Hello") rfl
  rcases h.mp hmem with h1 | h2 | ⟨p, hp, _⟩
  · exact absurd h1 (Finset.not_mem_empty _)
  · exact absurd h2.1 (by decide)
  · exact absurd hp (by simp [ledgerGet?])

/-! ## C1: round-trip of parse and reassemble -/

/-- Characters allowed in a key that the serializer reproduces verbatim:
no whitespace, no separator, no backslash. -/
def simpleKeyChar (c : Char) : Bool :=
  !isPySpace c && !isSepChar c && c != '\\'

/-- The parser's comment/blank test for a logical line. -/
def commentLineB (line : Str) : Bool :=
  (pyLStrip line).isEmpty || (pyLStrip line).headD ' ' == '#'
    || (pyLStrip line).headD ' ' == '!'

/-- A logical line (no terminator) that parses to an entry the serializer
reproduces byte-identically: a separator is found, the raw key is nonempty,
made of plain characters, does not open a comment, and the value does not end
in an odd number of backslashes (no continuation). -/
def simpleEntryLineB (line : Str) : Bool :=
  match findSepIndex line with
  | none => false
  | some j =>
    let keyRaw := line.take (sepGroupStart line j)
    !keyRaw.isEmpty && keyRaw.all simpleKeyChar
      && keyRaw.headD ' ' != '#' && keyRaw.headD ' ' != '!'
      && !hasUnescapedTrailingBackslash (line.drop (sepGroupEnd line j + 1))

/-- A physical chunk (one `readlines` item): newline-terminated, and its body
is either a comment/blank line or a simple entry line. -/
def simpleChunkB (chunk : Str) : Bool :=
  chunk.getLast? == some '\n'
    && (commentLineB chunk.dropLast || simpleEntryLineB chunk.dropLast)

/-- A file content on which the parse/serialize round trip is exact. -/
def simplePFile (content : Str) : Bool :=
  (readlines content).all simpleChunkB

theorem flatten_readlinesAux : ∀ (s acc : Str),
    (readlinesAux s acc).flatten = acc.reverse ++ s := by
  intro s
  induction s with
  | nil =>
    intro acc
    rw [readlinesAux]
    cases hacc : acc.isEmpty with
    | true => simp [List.isEmpty_iff.mp hacc]
    | false => simp
  | cons c t ih =>
    intro acc
    rw [readlinesAux]
    cases hc : c == '\n' with
    | true =>
      rw [if_pos rfl]
      simp only [List.flatten_cons, ih []]
      simp [beq_iff_eq.mp hc]
    | false =>
      rw [if_neg (by simp)]
      rw [ih (c :: acc)]
      simp

theorem flatten_readlines (s : Str) : (readlines s).flatten = s := by
  rw [readlines, flatten_readlinesAux]
  rfl

theorem readlines_chunk_shape_aux : ∀ (s acc : Str),
    (∀ x ∈ acc, x ≠ '\n') →
    ∀ ch ∈ readlinesAux s acc, ch ≠ [] ∧ ∀ x ∈ ch.dropLast, x ≠ '\n' := by
  intro s
  induction s with
  | nil =>
    intro acc hacc ch hch
    rw [readlinesAux] at hch
    split at hch
    · simp at hch
    · rename_i hne
      rw [List.mem_singleton] at hch
      subst hch
      refine ⟨by simpa using hne, ?_⟩
      intro x hx
      exact hacc x (List.mem_reverse.mp ((List.dropLast_sublist acc.reverse).mem hx))
  | cons c t ih =>
    intro acc hacc ch hch
    rw [readlinesAux] at hch
    split at hch
    · rename_i hc
      rw [List.mem_cons] at hch
      rcases hch with hch | hch
      · subst hch
        refine ⟨by simp, ?_⟩
        intro x hx
        rw [List.dropLast_concat] at hx
        exact hacc x (List.mem_reverse.mp hx)
      · exact ih [] (by simp) ch hch
    · rename_i hc
      refine ih (c :: acc) ?_ ch hch
      intro x hx
      rw [List.mem_cons] at hx
      rcases hx with hx | hx
      · subst hx; simpa using hc
      · exact hacc x hx

theorem readlines_chunk_shape (s : Str) :
    ∀ ch ∈ readlines s, ch ≠ [] ∧ ∀ x ∈ ch.dropLast, x ≠ '\n' :=
  readlines_chunk_shape_aux s [] (by simp)

theorem dropWhile_eq_self_of_all_false {p : Char → Bool} :
    ∀ {l : Str}, (∀ c ∈ l, p c = false) → l.dropWhile p = l := by
  intro l h
  cases l with
  | nil => rfl
  | cons c t => rw [List.dropWhile_cons, h c (List.mem_cons_self _ _)]; simp

theorem pyStrip_of_all_simple (s : Str) (h : ∀ c ∈ s, isPySpace c = false) :
    pyStrip s = s := by
  unfold pyStrip pyLStrip pyRStrip
  rw [dropWhile_eq_self_of_all_false h]
  rw [dropWhile_eq_self_of_all_false (fun c hc => h c (List.mem_reverse.mp hc))]
  exact List.reverse_reverse s

theorem unescapeKey_of_no_backslash : ∀ (s : Str), '\\' ∉ s → unescapeKey s = s := by
  intro s
  induction s with
  | nil => intro _; rfl
  | cons c t ih =>
    intro h
    cases t with
    | nil => rfl
    | cons d t' =>
      rw [unescapeKey]
      have hc : (c == '\\') = false := by
        simp only [beq_eq_false_iff_ne, ne_eq]
        intro hc
        exact h (hc ▸ List.mem_cons_self _ _)
      rw [hc, Bool.false_and, if_neg (by simp)]
      rw [ih (fun hmem => h (List.mem_cons_of_mem _ hmem))]

theorem rstripNewlines_append_newline (body : Str) (h : ∀ x ∈ body, x ≠ '\n') :
    rstripNewlines (body ++ ['\n']) = body := by
  unfold rstripNewlines
  rw [List.reverse_append]
  simp only [List.reverse_cons, List.reverse_nil, List.nil_append, List.singleton_append,
    List.dropWhile_cons]
  rw [if_pos (by simp)]
  rw [dropWhile_eq_self_of_all_false (fun c hc => by
    simpa using h c (List.mem_reverse.mp hc))]
  exact List.reverse_reverse body

theorem pyReplace_singleton_not_mem (c : Char) (rep : Str) :
    ∀ (v : Str), c ∉ v → pyReplace v [c] rep = v := by
  intro v
  induction v with
  | nil => intro _; exact pyReplace_nil _ _
  | cons d t ih =>
    intro h
    rw [pyReplace_cons_neg d t c [] rep (by
      simp only [List.isPrefixOf, Bool.and_eq_true, beq_iff_eq]
      rintro ⟨hcd, -⟩
      exact h (hcd ▸ List.mem_cons_self _ _))]
    rw [ih (fun hmem => h (List.mem_cons_of_mem _ hmem))]

theorem take_middle_drop {α : Type} (l : List α) (a b : Nat) (hab : a ≤ b) :
    l.take a ++ ((l.take b).drop a ++ l.drop b) = l := by
  conv_rhs => rw [← List.take_append_drop b l]
  rw [← List.append_assoc]
  congr 1
  conv_rhs => rw [← List.take_append_drop a (l.take b)]
  rw [List.take_take, Nat.min_eq_left hab]

theorem reassemble_file_nil : reassemble_file [] = [] := rfl

theorem reassemble_file_cons_comment (c : Str) (pls : List ParsedLine) :
    reassemble_file (.commentOrBlank c :: pls) = c ++ reassemble_file pls := by
  simp [reassemble_file]

/-- A single-line entry (no embedded newline, not multiline) is serialized as
`key ++ separator_group ++ value ++ "\n"`, whichever branch applies. -/
theorem reassemble_file_cons_entry_plain (key value ov : Str) (ln : Nat) (sg : Str)
    (pls : List ParsedLine) (hval : '\n' ∉ value) :
    reassemble_file (.entry key value ov ln false sg :: pls)
      = key ++ sg ++ value ++ ['\n'] ++ reassemble_file pls := by
  have hcon : value.contains '\n' = false := by
    rw [← Bool.not_eq_true, List.contains_iff_exists_mem_beq]
    rintro ⟨a, ha, hba⟩
    exact hval (by rwa [beq_iff_eq.mp hba])
  show ((ParsedLine.entry key value ov ln false sg :: pls).map _).flatten = _
  rw [List.map_cons, List.flatten_cons]
  congr 1
  dsimp only
  split
  · rw [pyReplace_singleton_not_mem _ _ _ hval]
  · rw [hcon]
    simp

theorem simpleKeyChar_not_space {c : Char} (h : simpleKeyChar c = true) :
    isPySpace c = false := by
  unfold simpleKeyChar at h
  simp only [Bool.and_eq_true, Bool.not_eq_true'] at h
  exact h.1.1

theorem simpleKeyChar_not_sep {c : Char} (h : simpleKeyChar c = true) :
    isSepChar c = false := by
  unfold simpleKeyChar at h
  simp only [Bool.and_eq_true, Bool.not_eq_true'] at h
  exact h.1.2

theorem simpleKeyChar_not_backslash {c : Char} (h : simpleKeyChar c = true) :
    c ≠ '\\' := by
  unfold simpleKeyChar at h
  simp only [Bool.and_eq_true, bne_iff_ne] at h
  exact h.2

theorem simpleEntryLineB_spec (line : Str) (h : simpleEntryLineB line = true) :
    ∃ j, findSepIndex line = some j ∧
      (line.take (sepGroupStart line j)) ≠ [] ∧
      (∀ c ∈ line.take (sepGroupStart line j), simpleKeyChar c = true) ∧
      (line.take (sepGroupStart line j)).headD ' ' ≠ '#' ∧
      (line.take (sepGroupStart line j)).headD ' ' ≠ '!' ∧
      hasUnescapedTrailingBackslash (line.drop (sepGroupEnd line j + 1)) = false := by
  unfold simpleEntryLineB at h
  cases hj : findSepIndex line with
  | none => rw [hj] at h; simp at h
  | some j =>
    rw [hj] at h
    dsimp only at h
    simp only [Bool.and_eq_true, Bool.not_eq_true', List.all_eq_true, bne_iff_ne,
      ne_eq] at h
    refine ⟨j, rfl, ?_, h.1.1.1.2, h.1.1.2, h.1.2, h.2⟩
    intro hnil
    rw [hnil] at h
    simp at h

/-- Parsing one simple entry chunk consumes exactly that chunk and produces
the entry whose fields are the three slices of the body. -/
theorem parseLinesAux_simple_entry_chunk (body : Str) (rest : List Str) (i : Nat)
    (hnb : ∀ x ∈ body, x ≠ '\n')
    (hcb : commentLineB body = false)
    (hsb : simpleEntryLineB body = true) :
    ∃ j, findSepIndex body = some j ∧
    parseLinesAux ((body ++ ['\n']) :: rest) i =
      .entry (body.take (sepGroupStart body j))
          (body.drop (sepGroupEnd body j + 1)) (body.drop (sepGroupEnd body j + 1))
          i false ((body.take (sepGroupEnd body j + 1)).drop (sepGroupStart body j))
        :: parseLinesAux rest (i + 1) := by
  obtain ⟨j, hj, hne, hall, hh, hb, hv⟩ := simpleEntryLineB_spec body hsb
  refine ⟨j, hj, ?_⟩
  have hline : rstripNewlines (body ++ ['\n']) = body :=
    rstripNewlines_append_newline body hnb
  rw [parseLinesAux_cons_entry (body ++ ['\n']) rest i j
    (by rw [hline]; exact hcb) (by rwa [hline])]
  dsimp only
  rw [hline]
  rw [consumeContinuations_of_not _ _ hv]
  dsimp only
  rw [Nat.sub_self, Nat.add_zero]
  congr 1
  rw [unescapeKey_of_no_backslash _ (by
    rw [pyStrip_of_all_simple _ (fun c hc => simpleKeyChar_not_space (hall c hc))]
    intro hmem
    exact simpleKeyChar_not_backslash (hall _ hmem) rfl)]
  rw [pyStrip_of_all_simple _ (fun c hc => simpleKeyChar_not_space (hall c hc))]
  simp

theorem sepGroupStart_le (line : Str) (j : Nat) : sepGroupStart line j ≤ j :=
  Nat.sub_le _ _

theorem le_sepGroupEnd (line : Str) (j : Nat) : j ≤ sepGroupEnd line j :=
  Nat.le_add_right _ _

theorem reassemble_parseLinesAux_chunks : ∀ (chunks : List Str) (i : Nat),
    (∀ ch ∈ chunks, simpleChunkB ch = true ∧ ch ≠ [] ∧ ∀ x ∈ ch.dropLast, x ≠ '\n') →
    reassemble_file (parseLinesAux chunks i) = chunks.flatten := by
  intro chunks
  induction chunks with
  | nil => intro i _; rfl
  | cons ch rest ih =>
    intro i h
    obtain ⟨hs, hne, hnl⟩ := h ch (List.mem_cons_self _ _)
    unfold simpleChunkB at hs
    rw [Bool.and_eq_true] at hs
    have hlast : ch.getLast hne = '\n' := by
      have := List.getLast?_eq_getLast ch hne
      rw [this] at hs
      have h2 := beq_iff_eq.mp hs.1
      injection h2
    have hch : ch = ch.dropLast ++ ['\n'] := by
      conv_lhs => rw [← List.dropLast_append_getLast hne, hlast]
    by_cases hcb : commentLineB ch.dropLast = true
    · rw [hch, parseLinesAux_cons_comment _ rest i (by
        rw [rstripNewlines_append_newline _ hnl]
        exact hcb)]
      rw [reassemble_file_cons_comment, ih (i + 1) (fun c hc => h c (List.mem_cons_of_mem _ hc)),
        List.flatten_cons, ← hch]
    · have hsb : simpleEntryLineB ch.dropLast = true := by
        rcases Bool.or_eq_true _ _ |>.mp hs.2 with hx | hx
        · exact absurd hx hcb
        · exact hx
      obtain ⟨j, hj, hstep⟩ := parseLinesAux_simple_entry_chunk ch.dropLast rest i hnl
        (Bool.not_eq_true _ |>.mp hcb) hsb
      rw [hch, hstep]
      rw [reassemble_file_cons_entry_plain _ _ _ _ _ _ (fun hmem =>
        hnl '\n' (List.drop_subset _ _ hmem) rfl)]
      rw [ih (i + 1) (fun c hc => h c (List.mem_cons_of_mem _ hc)), List.flatten_cons]
      have hsplit : ch.dropLast.take (sepGroupStart ch.dropLast j)
          ++ ((ch.dropLast.take (sepGroupEnd ch.dropLast j + 1)).drop (sepGroupStart ch.dropLast j)
            ++ ch.dropLast.drop (sepGroupEnd ch.dropLast j + 1)) = ch.dropLast :=
        take_middle_drop _ _ _ (Nat.le_trans (sepGroupStart_le _ _)
          (Nat.le_trans (le_sepGroupEnd _ _) (Nat.le_succ _)))
      conv_rhs => rw [← hsplit]
      simp [List.append_assoc]

/-- **C1 counterexample.** The one-line file `a\=b=c\n` is syntactically valid
(an entry whose key contains the escaped separator `\=`) and no value is
mutated after parsing, yet `reassemble_file ∘ parse_properties_file` rewrites
it to `a=b=c\n`: the serializer emits the unescaped key, so the round trip is
not byte-identical. -/
theorem parse_reassemble_not_identity :
    reassemble_file (parse_properties_file (chars "a\\=b=c\n")).1 = chars "a=b=c\n" ∧
    reassemble_file (parse_properties_file (chars "a\\=b=c\n")).1 ≠ chars "a\\=b=c\n" := by
  constructor
  · decide
  · decide

/-- **C1 (amended).** The parse/serialize round trip is byte-identical for
every file whose physical lines are newline-terminated and are each either a
comment/blank line, or a single-line entry with a separator, whose raw key is
nonempty, free of whitespace, separators and backslashes, does not start a
comment, and whose value does not end in an odd number of backslashes
(`simplePFile`).  Escaped separators in keys, multiline continuations,
no-separator lines and unterminated final entry lines are excluded: the
counterexample shows the round trip fails on them. -/
theorem parse_reassemble_roundtrip (content : Str) (h : simplePFile content = true) :
    reassemble_file (parse_properties_file content).1 = content := by
  unfold parse_properties_file
  dsimp only
  rw [reassemble_parseLinesAux_chunks (readlines content) 0 ?_, flatten_readlines]
  intro ch hch
  refine ⟨?_, (readlines_chunk_shape content ch hch).1, (readlines_chunk_shape content ch hch).2⟩
  rw [simplePFile, List.all_eq_true] at h
  exact h ch hch

theorem parse_reassemble_roundtrip_witness :
    simplePFile (chars "# header\nkey = value\n\nk2:v2\nk3 :\n") = true ∧
    reassemble_file (parse_properties_file
        (chars "# header\nkey = value\n\nk2:v2\nk3 :\n")).1 =
      chars "# header\nkey = value\n\nk2:v2\nk3 :\n" :=
  ⟨by decide, parse_reassemble_roundtrip _ (by decide)⟩

/-! ## C8: insertion position for missing keys -/

theorem findFirstExisting_eq (tIdx : Str → Option Nat) : ∀ keys : List Str,
    findFirstExisting tIdx keys =
      (keys.find? (fun k => (tIdx k).isSome)).map (fun k => (k, (tIdx k).getD 0)) := by
  intro keys
  induction keys with
  | nil => rfl
  | cons k rest ih =>
    rw [findFirstExisting]
    cases hk : tIdx k with
    | some i =>
      rw [List.find?_cons_of_pos _ (by rw [hk]; rfl)]
      simp [hk]
    | none =>
      rw [List.find?_cons_of_neg _ (by rw [hk]; simp)]
      exact ih

theorem walkBackLoop_eq_spec (fin : List ParsedLine) : ∀ idx, idx ≤ fin.length →
    walkBackLoop fin idx =
      idx - ((fin.take idx).reverse.takeWhile (fun l => !l.isEntry)).length := by
  intro idx
  induction idx with
  | zero => intro _; rfl
  | succ i ih =>
    intro hle
    have hi : i < fin.length := by omega
    have htake : (fin.take (i + 1)).reverse = fin[i] :: (fin.take i).reverse := by
      rw [List.take_succ, List.getElem?_eq_getElem hi]
      simp
    rw [walkBackLoop, htake]
    by_cases he : (fin.getD i (.commentOrBlank [])).isEntry = true
    · rw [if_pos he]
      rw [List.getD_eq_getElem _ _ hi] at he
      rw [List.takeWhile_cons, he]
      simp
    · rw [if_neg he]
      rw [Bool.not_eq_true] at he
      rw [List.getD_eq_getElem _ _ hi] at he
      rw [List.takeWhile_cons, he]
      rw [if_pos (by simp)]
      simp only [List.length_cons]
      rw [ih (by omega)]
      have hL : ((fin.take i).reverse.takeWhile (fun l => !l.isEntry)).length ≤ i := by
        have h1 := List.Sublist.length_le
          (List.takeWhile_sublist (l := (fin.take i).reverse) (p := fun l => !l.isEntry))
        have h2 : (fin.take i).reverse.length = i := by
          simp [List.length_take, Nat.min_eq_left (Nat.le_of_lt hi)]
        omega
      omega

theorem walkFwdLoop_step (fin : List ParsedLine) (i : Nat) :
    walkFwdLoop fin i =
      if i < fin.length ∧ ¬(fin.getD i (.commentOrBlank [])).isEntry then
        walkFwdLoop fin (i + 1)
      else i := by
  unfold walkFwdLoop
  cases hd : fin.length - i with
  | zero =>
    rw [walkFwdLoopF, if_neg ?hc]
    case hc =>
      rintro ⟨h1, -⟩
      omega
  | succ d =>
    rw [walkFwdLoopF]
    by_cases hc : i < fin.length ∧ ¬(fin.getD i (.commentOrBlank [])).isEntry
    · rw [if_pos hc, if_pos hc]
      exact walkFwdLoopF_eq d fin (i + 1) (by omega)
    · rw [if_neg hc, if_neg hc]

theorem walkFwdLoop_eq_spec : ∀ (d : Nat) (fin : List ParsedLine) (idx : Nat),
    fin.length - idx ≤ d →
    walkFwdLoop fin idx =
      idx + ((fin.drop idx).takeWhile (fun l => !l.isEntry)).length := by
  intro d
  induction d with
  | zero =>
    intro fin idx hd
    rw [walkFwdLoop_step, if_neg (by rintro ⟨h1, -⟩; omega)]
    rw [List.drop_eq_nil_of_le (by omega)]
    rfl
  | succ d ih =>
    intro fin idx hd
    rw [walkFwdLoop_step]
    by_cases hc : idx < fin.length ∧ ¬(fin.getD idx (.commentOrBlank [])).isEntry
    · rw [if_pos hc]
      rw [ih fin (idx + 1) (by omega)]
      rw [List.drop_eq_getElem_cons hc.1, List.takeWhile_cons]
      have : (fin.getD idx (.commentOrBlank [])).isEntry = false := by
        rw [← Bool.not_eq_true]
        exact hc.2
      rw [List.getD_eq_getElem _ _ hc.1] at this
      rw [this]
      rw [if_pos (by simp)]
      simp only [List.length_cons]
      omega
    · rw [if_neg hc]
      rcases Nat.lt_or_ge idx fin.length with hlt | hge
      · have hent : (fin.getD idx (.commentOrBlank [])).isEntry = true := by
          by_contra hno
          exact hc ⟨hlt, hno⟩
        rw [List.drop_eq_getElem_cons hlt, List.takeWhile_cons]
        rw [List.getD_eq_getElem _ _ hlt] at hent
        rw [hent]
        rw [if_neg (by simp)]
        rfl
      · rw [List.drop_eq_nil_of_le hge]
        rfl

theorem lastEntryIdx?_lt (pls : List ParsedLine) (k : Str) (i : Nat)
    (h : lastEntryIdx? pls k = some i) : i < pls.length := by
  unfold lastEntryIdx? at h
  rw [Option.map_eq_some'] at h
  obtain ⟨⟨i', pl⟩, hfind, hi⟩ := h
  subst hi
  have hmem := List.mem_of_find?_eq_some hfind
  rw [List.mem_reverse] at hmem
  have := List.mk_mem_enum_iff_getElem?.mp hmem
  rw [List.getElem?_eq_some] at this
  exact this.1

/-- **C8 counterexample.** Source `x=1\n# c\na=2\n`, target `# c\na=2\n`: the
missing key `x` has a following source key `a` that already exists in the
target at index 1, so the claim dictates insertion immediately before index 1;
but a non-entry line sits between `x` and `a` in the source, so the code walks
the insertion point back over the comment block and inserts at index 0 — the
synchronized file starts with `x=1` before the comment. -/
theorem find_insertion_index_not_immediately_before :
    find_insertion_index_for_missing_key (chars "x")
        ((parse_properties_file (chars "x=1\n# c\na=2\n")).1.filterMap ParsedLine.entryKey?)
        (parse_properties_file (chars "x=1\n# c\na=2\n")).1
        (lastEntryIdx? (parse_properties_file (chars "x=1\n# c\na=2\n")).1)
        (parse_properties_file (chars "# c\na=2\n")).1 = 0 ∧
    lastEntryIdx? (parse_properties_file (chars "# c\na=2\n")).1 (chars "a") = some 1 ∧
    (synchronize_keys (chars "# c\na=2\n") (chars "x=1\n# c\na=2\n")).2.2 =
      chars "x=1\n# c\na=2\n" := by
  exact ⟨by decide, by decide, by decide⟩

/-- **C8 (amended).** The insertion index for a missing key is: the target
index of the nearest source key that follows it in source order and exists in
the target — moved back over the contiguous run of non-entry lines directly
before that anchor when a non-entry line separates the key from the anchor in
the source; failing that, one past the target index of the nearest preceding
existing source key — moved forward over non-entry lines under the symmetric
condition; failing both, the end of the file.  The inserted entry's value is
copied verbatim from the source translations map. -/
theorem find_insertion_index_characterization :
    (∀ (key : Str) (order : List Str) (spl : List ParsedLine)
      (slic : Str → Option Nat) (fin : List ParsedLine),
      find_insertion_index_for_missing_key key order spl slic fin =
        (let tIdx := lastEntryIdx? fin
        let idx := (lastIdxOf order key).getD 0
        match (order.drop (idx + 1)).find? (fun k2 => (tIdx k2).isSome) with
        | some nextKey =>
          let base := (tIdx nextKey).getD 0
          if hasNonEntryBetween spl ((slic key).getD 0 + 1) ((slic nextKey).getD 0) then
            base - ((fin.take base).reverse.takeWhile (fun l => !l.isEntry)).length
          else base
        | none =>
          match (order.take idx).reverse.find? (fun k2 => (tIdx k2).isSome) with
          | some prevKey =>
            let base := (tIdx prevKey).getD 0 + 1
            if hasNonEntryBetween spl ((slic prevKey).getD 0 + 1) ((slic key).getD 0) then
              base + ((fin.drop base).takeWhile (fun l => !l.isEntry)).length
            else base
          | none => fin.length)) ∧
    (∀ (src : List (Str × Str)) (k : Str) (spl2 : List ParsedLine) (idx2 : Nat),
      ∃ ln wm sg, missingKeyEntry k src spl2 idx2 =
        .entry k (dictGetD src k []) (dictGetD src k []) ln wm sg) := by
  constructor
  · intro key order spl slic fin
    unfold find_insertion_index_for_missing_key
    dsimp only
    rw [findFirstExisting_eq, findFirstExisting_eq]
    cases hfind : (order.drop ((lastIdxOf order key).getD 0 + 1)).find?
        (fun k2 => (lastEntryIdx? fin k2).isSome) with
    | some nextKey =>
      dsimp only [Option.map_some']
      have hsome : (lastEntryIdx? fin nextKey).isSome = true := by
        have := List.find?_some hfind
        simpa using this
      obtain ⟨b, hb⟩ := Option.isSome_iff_exists.mp hsome
      have hblt : b < fin.length := lastEntryIdx?_lt fin nextKey b hb
      split
      · exact walkBackLoop_eq_spec fin _ (by rw [hb]; exact Nat.le_of_lt (by simpa using hblt))
      · rfl
    | none =>
      dsimp only [Option.map_none']
      cases hfind2 : (order.take ((lastIdxOf order key).getD 0)).reverse.find?
          (fun k2 => (lastEntryIdx? fin k2).isSome) with
      | some prevKey =>
        dsimp only [Option.map_some']
        split
        · exact walkFwdLoop_eq_spec fin.length fin _ (Nat.sub_le _ _)
        · rfl
      | none => rfl
  · intro src k spl2 idx2
    unfold missingKeyEntry
    cases hle : lastEntry? spl2 k with
    | none => exact ⟨idx2, false, ['='], rfl⟩
    | some pl =>
      cases pl with
      | commentOrBlank c => exact ⟨idx2, false, ['='], rfl⟩
      | entry k' v' ov' ln' wm' sg' => exact ⟨ln', wm', sg', rfl⟩

/-! ## C3: synchronizer convergence -/

/-- Separator groups that reparse to themselves: whitespace, one separator,
whitespace (no newline anywhere). -/
def goodSepGroup (sg : Str) : Prop :=
  ∃ a c b, sg = a ++ c :: b ∧ isSepChar c = true ∧
    (∀ x ∈ a, isPySpace x = true ∧ x ≠ '\n') ∧
    (∀ x ∈ b, isPySpace x = true ∧ x ≠ '\n')

/-- Values that reparse to themselves: single physical line, no continuation,
no leading whitespace. -/
def goodValue (v : Str) : Prop :=
  (∀ x ∈ v, x ≠ '\n') ∧ hasUnescapedTrailingBackslash v = false ∧
    ∀ c t, v = c :: t → isPySpace c = false

def goodKey (k : Str) : Prop :=
  k ≠ [] ∧ (∀ c ∈ k, simpleKeyChar c = true) ∧
    k.headD ' ' ≠ '#' ∧ k.headD ' ' ≠ '!'

/-- Parsed lines whose serialization reparses with the same key and value. -/
def GoodLine : ParsedLine → Prop
  | .commentOrBlank c =>
    ∃ body, c = body ++ ['\n'] ∧ (∀ x ∈ body, x ≠ '\n') ∧ commentLineB body = true
  | .entry k v _ _ wm sg => goodKey k ∧ goodValue v ∧ goodSepGroup sg ∧ wm = false

theorem isPySpace_not_sep {c : Char} (h : isPySpace c = true) : isSepChar c = false := by
  unfold isPySpace at h
  unfold isSepChar
  rcases Bool.or_eq_true _ _ |>.mp h with h | h
  rcases Bool.or_eq_true _ _ |>.mp h with h | h
  rcases Bool.or_eq_true _ _ |>.mp h with h | h
  rcases Bool.or_eq_true _ _ |>.mp h with h | h
  rcases Bool.or_eq_true _ _ |>.mp h with h | h
  all_goals rw [beq_iff_eq.mp h]
  all_goals rfl

theorem isPySpace_not_backslash {c : Char} (h : isPySpace c = true) : c ≠ '\\' := by
  unfold isPySpace at h
  rcases Bool.or_eq_true _ _ |>.mp h with h | h
  rcases Bool.or_eq_true _ _ |>.mp h with h | h
  rcases Bool.or_eq_true _ _ |>.mp h with h | h
  rcases Bool.or_eq_true _ _ |>.mp h with h | h
  rcases Bool.or_eq_true _ _ |>.mp h with h | h
  all_goals rw [beq_iff_eq.mp h]
  all_goals decide

theorem takeWhile_append_all {p : Char → Bool} (xs : Str) :
    ∀ ys, (∀ x ∈ xs, p x = true) →
    (xs ++ ys).takeWhile p = xs ++ ys.takeWhile p := by
  induction xs with
  | nil => intro ys _; rfl
  | cons x xs' ih =>
    intro ys h
    rw [List.cons_append, List.takeWhile_cons, h x (List.mem_cons_self _ _)]
    rw [if_pos rfl, ih ys (fun x hx => h x (List.mem_cons_of_mem _ hx))]
    rfl

theorem takeWhile_cons_false {p : Char → Bool} {x : Char} (xs : Str)
    (h : p x = false) : (x :: xs).takeWhile p = [] := by
  rw [List.takeWhile_cons, h]
  rfl

theorem takeWhile_eq_nil_of_all_false {p : Char → Bool} {xs : Str}
    (h : ∀ x ∈ xs, p x = false) : xs.takeWhile p = [] := by
  cases xs with
  | nil => rfl
  | cons x t => exact takeWhile_cons_false t (h x (List.mem_cons_self _ _))

theorem trailingBackslashCount_eq_zero {s : Str}
    (h : ∀ c ∈ s, c ≠ '\\') : trailingBackslashCount s = 0 := by
  unfold trailingBackslashCount
  rw [takeWhile_eq_nil_of_all_false (fun x hx => by
    simp only [beq_eq_false_iff_ne, ne_eq]
    exact h x (List.mem_reverse.mp hx))]
  rfl

theorem dropWhile_eq_drop_takeWhile_length (p : Char → Bool) :
    ∀ l : Str, l.dropWhile p = l.drop (l.takeWhile p).length := by
  intro l
  induction l with
  | nil => rfl
  | cons c t ih =>
    rw [List.dropWhile_cons, List.takeWhile_cons]
    cases hc : p c with
    | true => simpa using ih
    | false => simp

theorem isSepChar_ne_newline {c : Char} (h : isSepChar c = true) : c ≠ '\n' := by
  unfold isSepChar at h
  rcases Bool.or_eq_true _ _ |>.mp h with h | h
  all_goals rw [beq_iff_eq.mp h]
  all_goals decide

theorem getD_append_length {α} (X : List α) (c : α) (Y : List α) (d : α) :
    (X ++ c :: Y).getD X.length d = c := by
  induction X with
  | nil => rfl
  | cons x xs ih => simpa using ih

theorem getD_append_lt {α} (X Y : List α) (i : Nat) (d : α) (h : i < X.length) :
    (X ++ Y).getD i d = X.getD i d := by
  rw [List.getD_eq_getElem _ _ (by rw [List.length_append]; omega),
    List.getD_eq_getElem _ _ h]
  exact List.getElem_append_left h

/-- A good entry line reparses to exactly the same key, value and separator
group, consuming exactly one chunk. -/
theorem parseLinesAux_good_entry (k v : Str) (sg : Str)
    (hk : goodKey k) (hv : goodValue v) (hsg : goodSepGroup sg) :
    ∀ (rest : List Str) (i : Nat),
    parseLinesAux ((k ++ sg ++ v ++ ['\n']) :: rest) i =
      .entry k v v i false sg :: parseLinesAux rest (i + 1) := by
  obtain ⟨hkne, hkall, hkh, hkb⟩ := hk
  obtain ⟨hvnl, hvbs, hvhead⟩ := hv
  obtain ⟨a, c, b, hsgeq, hcsep, ha, hb⟩ := hsg
  intro rest i
  subst hsgeq
  -- the logical line and its physical chunk
  have hbody_nl : ∀ x ∈ k ++ (a ++ c :: b) ++ v, x ≠ '\n' := by
    intro x hx
    rw [List.mem_append, List.mem_append] at hx
    rcases hx with (hx | hx) | hx
    · intro he
      subst he
      exact absurd (simpleKeyChar_not_space (hkall _ hx)) (by decide)
    · rw [List.mem_append, List.mem_cons] at hx
      rcases hx with hx | hx | hx
      · exact (ha x hx).2
      · subst hx; exact isSepChar_ne_newline hcsep
      · exact (hb x hx).2
    · exact hvnl x hx
  have hline : rstripNewlines ((k ++ (a ++ c :: b) ++ v) ++ ['\n'])
      = k ++ (a ++ c :: b) ++ v := rstripNewlines_append_newline _ hbody_nl
  set line := k ++ (a ++ c :: b) ++ v with hline_def
  -- the separator scan finds the separator character
  have hlineKA : line = (k ++ a) ++ (c :: (b ++ v)) := by
    simp [hline_def, List.append_assoc]
  have hKAnb : ∀ x ∈ k ++ a, x ≠ '\\' := by
    intro x hx
    rw [List.mem_append] at hx
    rcases hx with hx | hx
    · exact simpleKeyChar_not_backslash (hkall _ hx)
    · exact isPySpace_not_backslash (ha x hx).1
  have hj : findSepIndex line = some (k.length + a.length) := by
    rw [findSepIndex_iff]
    refine ⟨?_, ?_, ?_, ?_⟩
    · rw [hlineKA]
      simp only [List.length_append, List.length_cons]
      omega
    · rw [hlineKA]
      have : (k ++ a).length = k.length + a.length := List.length_append _ _
      rw [← this, getD_append_length]
      exact hcsep
    · unfold backslashRunBefore
      rw [hlineKA]
      have hlen : (k ++ a).length = k.length + a.length := List.length_append _ _
      rw [← hlen, List.take_left]
      rw [trailingBackslashCount_eq_zero hKAnb]
    · intro idx hidx hcon
      have hlt : idx < (k ++ a).length := by
        rw [List.length_append]; omega
      rw [hlineKA, getD_append_lt _ _ _ _ hlt] at hcon
      have hmem : (k ++ a).getD idx ' ' ∈ k ++ a := by
        rw [List.getD_eq_getElem _ _ hlt]
        exact List.getElem_mem _
      rw [List.mem_append] at hmem
      rcases hmem with hm | hm
      · exact absurd hcon.1 (by rw [simpleKeyChar_not_sep (hkall _ hm)]; simp)
      · exact absurd hcon.1 (by rw [isPySpace_not_sep (ha _ hm).1]; simp)
  -- the separator group bounds
  have hstart : sepGroupStart line (k.length + a.length) = k.length := by
    unfold sepGroupStart
    rw [hlineKA]
    have hlen : (k ++ a).length = k.length + a.length := List.length_append _ _
    rw [← hlen, List.take_left, List.reverse_append]
    rw [takeWhile_append_all _ _ (fun x hx => (ha x (List.mem_reverse.mp hx)).1)]
    have hkrev : k.reverse.takeWhile isPySpace = [] := by
      cases hkr : k.reverse with
      | nil => rfl
      | cons x xs =>
        refine takeWhile_cons_false _ ?_
        have hxk : x ∈ k := by
          rw [← List.mem_reverse, hkr]
          exact List.mem_cons_self _ _
        exact simpleKeyChar_not_space (hkall _ hxk)
    rw [hkrev]
    simp
  have hend : sepGroupEnd line (k.length + a.length) = k.length + a.length + b.length := by
    unfold sepGroupEnd
    have hdrop : line.drop (k.length + a.length + 1) = b ++ v := by
      have : line = (k ++ a ++ [c]) ++ (b ++ v) := by
        simp [hline_def, List.append_assoc]
      rw [this]
      have hlen : (k ++ a ++ [c]).length = k.length + a.length + 1 := by
        simp [List.length_append]
        omega
      rw [← hlen, List.drop_left]
    rw [hdrop]
    rw [takeWhile_append_all _ _ (fun x hx => (hb x hx).1)]
    have hvtw : v.takeWhile isPySpace = [] := by
      cases hveq : v with
      | nil => rfl
      | cons c0 t0 => exact takeWhile_cons_false _ (hvhead c0 t0 hveq)
    rw [hvtw]
    simp
  -- the three slices
  have hkeyRaw : line.take (k.length) = k := by
    have h1 : line = k ++ ((a ++ c :: b) ++ v) := by simp [hline_def, List.append_assoc]
    rw [h1]
    exact List.take_left' rfl
  have hsgSlice : (line.take (k.length + a.length + b.length + 1)).drop (k.length)
      = a ++ c :: b := by
    have h1 : line = (k ++ (a ++ c :: b)) ++ v := by simp [hline_def]
    have h2 : (k ++ (a ++ c :: b)).length = k.length + a.length + b.length + 1 := by
      simp [List.length_append, List.length_cons]
      omega
    rw [h1, ← h2, List.take_left, List.drop_left]
  have hvalSlice : line.drop (k.length + a.length + b.length + 1) = v := by
    have h1 : line = (k ++ (a ++ c :: b)) ++ v := by simp [hline_def]
    have h2 : (k ++ (a ++ c :: b)).length = k.length + a.length + b.length + 1 := by
      simp [List.length_append, List.length_cons]
      omega
    rw [h1, ← h2, List.drop_left]
  -- the comment test fails
  have hcomment : ((pyLStrip line).isEmpty
      || (pyLStrip line).headD ' ' == '#'
      || (pyLStrip line).headD ' ' == '!') = false := by
    cases hkeq : k with
    | nil => exact absurd hkeq hkne
    | cons kh kt =>
      have hlstrip : pyLStrip line = line := by
        unfold pyLStrip
        have : line = kh :: (kt ++ ((a ++ c :: b) ++ v)) := by
          simp [hline_def, hkeq, List.append_assoc]
        rw [this, List.dropWhile_cons,
          simpleKeyChar_not_space (hkall kh (by rw [hkeq]; exact List.mem_cons_self _ _))]
        simp
      rw [hlstrip]
      have hlineeq : line = kh :: (kt ++ ((a ++ c :: b) ++ v)) := by
        simp [hline_def, hkeq, List.append_assoc]
      rw [hlineeq]
      simp only [List.isEmpty_cons, List.headD_cons, Bool.or_eq_false_iff]
      refine ⟨⟨by simp, ?_⟩, ?_⟩
      · rw [beq_eq_false_iff_ne]
        intro he
        apply hkh
        rw [hkeq, List.headD_cons, he]
      · rw [beq_eq_false_iff_ne]
        intro he
        apply hkb
        rw [hkeq, List.headD_cons, he]
  -- put everything together
  show parseLinesAux ((line ++ ['\n']) :: rest) i = _
  rw [parseLinesAux_cons_entry _ rest i (k.length + a.length)
    (by rw [hline]; exact hcomment) (by rw [hline]; exact hj)]
  dsimp only
  rw [hline, hstart, hend]
  have hend1 : k.length + a.length + b.length + 1 = k.length + a.length + b.length + 1 := rfl
  rw [hvalSlice, consumeContinuations_of_not _ _ hvbs]
  dsimp only
  rw [Nat.sub_self, Nat.add_zero]
  congr 1
  · rw [hkeyRaw]
    rw [pyStrip_of_all_simple _ (fun x hx => simpleKeyChar_not_space (hkall _ hx)),
      unescapeKey_of_no_backslash _ (fun hmem => simpleKeyChar_not_backslash (hkall _ hmem) rfl)]
    rw [hsgSlice]
    simp

theorem head_dropWhile_false (p : Char → Bool) :
    ∀ (l : Str) (c : Char) (t : Str), l.dropWhile p = c :: t → p c = false := by
  intro l
  induction l with
  | nil => intro c t h; simp at h
  | cons x xs ih =>
    intro c t h
    rw [List.dropWhile_cons] at h
    split at h
    · exact ih c t h
    · rename_i hx
      injection h with h1 _
      subst h1
      simpa using hx

/-- Dropping everything before the trailing run of `p`-characters leaves
exactly that run. -/
theorem drop_sub_trailing_run (p : Char → Bool) (l : Str) :
    l.drop (l.length - (l.reverse.takeWhile p).length) = (l.reverse.takeWhile p).reverse := by
  set R := l.reverse.takeWhile p with hR
  set D := l.reverse.dropWhile p with hD
  have hpart : R ++ D = l.reverse := List.takeWhile_append_dropWhile p l.reverse
  have hl : l = D.reverse ++ R.reverse := by
    conv_lhs => rw [← List.reverse_reverse l, ← hpart]
    rw [List.reverse_append]
  have hlen : D.reverse.length = l.length - R.length := by
    have h1 : R.length + D.length = l.length := by
      rw [← List.length_append, hpart, List.length_reverse]
    simp only [List.length_reverse]
    omega
  rw [← hlen]
  conv_lhs => rw [hl]
  exact List.drop_left _ _

/-- The structural facts about the entry produced from a simple entry line. -/
theorem parsed_entry_good (body : Str) (hnb : ∀ x ∈ body, x ≠ '\n')
    (hsb : simpleEntryLineB body = true) (j : Nat) (hj : findSepIndex body = some j) :
    goodKey (body.take (sepGroupStart body j)) ∧
    goodValue (body.drop (sepGroupEnd body j + 1)) ∧
    goodSepGroup ((body.take (sepGroupEnd body j + 1)).drop (sepGroupStart body j)) := by
  obtain ⟨j', hj', hne, hall, hh, hb', hv⟩ := simpleEntryLineB_spec body hsb
  rw [hj] at hj'
  injection hj' with hj'
  subst hj'
  obtain ⟨hjlt, hjsep, -, -⟩ := findSepIndex_iff body j |>.mp hj
  have hW : sepGroupEnd body j + 1
      = (j + 1) + ((body.drop (j + 1)).takeWhile isPySpace).length := by
    unfold sepGroupEnd
    omega
  have hWle : ((body.drop (j + 1)).takeWhile isPySpace).length ≤ body.length - (j + 1) := by
    have := List.Sublist.length_le
      (List.takeWhile_sublist (l := body.drop (j + 1)) (p := isPySpace))
    simpa using this
  have he1le : sepGroupEnd body j + 1 ≤ body.length := by
    rw [hW]; omega
  refine ⟨⟨hne, hall, hh, hb'⟩, ?_, ?_⟩
  · -- the value
    refine ⟨fun x hx => hnb x (List.drop_subset _ _ hx), hv, ?_⟩
    intro c t hct
    have hdw : body.drop (sepGroupEnd body j + 1)
        = (body.drop (j + 1)).dropWhile isPySpace := by
      rw [dropWhile_eq_drop_takeWhile_length, List.drop_drop, hW]
    rw [hdw] at hct
    exact head_dropWhile_false isPySpace _ c t hct
  · -- the separator group
    have hsle : sepGroupStart body j ≤ j := Nat.sub_le _ _
    have hjlt' : j < (body.take (sepGroupEnd body j + 1)).length := by
      rw [List.length_take]
      have := le_sepGroupEnd body j
      omega
    set X := body.take (sepGroupEnd body j + 1) with hX
    have hXtake : X.take j = body.take j := by
      rw [hX, List.take_take, Nat.min_eq_left (by have := le_sepGroupEnd body j; omega)]
    have hXj : X[j] = body[j] := by
      have h2 : j < (body.take (sepGroupEnd body j + 1)).length := by
        rw [List.length_take]
        have := le_sepGroupEnd body j
        omega
      show (body.take (sepGroupEnd body j + 1))[j] = body[j]
      exact List.getElem_take body
    have hdecomp : X.drop (sepGroupStart body j)
        = (body.take j).drop (sepGroupStart body j) ++ (body[j] :: X.drop (j + 1)) := by
      conv_lhs => rw [← List.take_append_drop j X]
      rw [List.drop_append_of_le_length (by rw [List.length_take]; omega)]
      rw [hXtake, List.drop_eq_getElem_cons hjlt', hXj]
    refine ⟨(body.take j).drop (sepGroupStart body j), body[j], X.drop (j + 1),
      hdecomp, ?_, ?_, ?_⟩
    · rw [List.getD_eq_getElem _ _ hjlt] at hjsep
      exact hjsep
    · -- leading whitespace run
      intro x hx
      have hlen_take : (body.take j).length = j :=
        List.length_take_of_le (Nat.le_of_lt hjlt)
      have hrun : (body.take j).drop (sepGroupStart body j)
          = ((body.take j).reverse.takeWhile isPySpace).reverse := by
        unfold sepGroupStart
        have h0 := drop_sub_trailing_run isPySpace (body.take j)
        rwa [hlen_take] at h0
      rw [hrun, List.mem_reverse] at hx
      refine ⟨List.mem_takeWhile_imp hx, ?_⟩
      have : x ∈ body := by
        have h1 := (List.takeWhile_sublist (l := (body.take j).reverse)
          (p := isPySpace)).mem hx
        rw [List.mem_reverse] at h1
        exact List.take_subset _ _ h1
      exact hnb x this
    · -- trailing whitespace run
      intro x hx
      have hXdrop : X.drop (j + 1) = (body.drop (j + 1)).takeWhile isPySpace := by
        rw [hX, List.drop_take]
        have : sepGroupEnd body j + 1 - (j + 1)
            = ((body.drop (j + 1)).takeWhile isPySpace).length := by
          rw [hW]; omega
        rw [this]
        exact (List.prefix_iff_eq_take.mp (List.takeWhile_prefix _)).symm
      rw [hXdrop] at hx
      refine ⟨List.mem_takeWhile_imp hx, ?_⟩
      have : x ∈ body := by
        have h1 := (List.takeWhile_sublist (l := body.drop (j + 1))
          (p := isPySpace)).mem hx
        exact List.drop_subset _ _ h1
      exact hnb x this

theorem readlinesAux_no_newline : ∀ (body r acc : Str),
    (∀ x ∈ body, x ≠ '\n') →
    readlinesAux (body ++ r) acc = readlinesAux r (body.reverse ++ acc) := by
  intro body
  induction body with
  | nil => intro r acc _; simp
  | cons c t ih =>
    intro r acc h
    rw [List.cons_append, readlinesAux,
      if_neg (by simpa using h c (List.mem_cons_self _ _))]
    rw [ih r (c :: acc) (fun x hx => h x (List.mem_cons_of_mem _ hx))]
    simp

theorem readlines_of_chunks : ∀ (chunks : List Str),
    (∀ ch ∈ chunks, ∃ body, ch = body ++ ['\n'] ∧ ∀ x ∈ body, x ≠ '\n') →
    readlines (chunks.flatten) = chunks := by
  intro chunks
  induction chunks with
  | nil => intro _; rfl
  | cons ch rest ih =>
    intro h
    obtain ⟨body, hch, hnl⟩ := h ch (List.mem_cons_self _ _)
    rw [List.flatten_cons, hch]
    show readlinesAux ((body ++ ['\n']) ++ rest.flatten) [] = (body ++ ['\n']) :: rest
    rw [List.append_assoc]
    rw [readlinesAux_no_newline body _ [] hnl]
    rw [List.singleton_append, readlinesAux,
      if_pos (show ('\n' == '\n') = true from rfl)]
    rw [List.append_nil, List.reverse_reverse]
    exact congrArg _ (ih (fun c hc => h c (List.mem_cons_of_mem _ hc)))

/-- The physical chunk a good parsed line serializes to. -/
def chunkOf : ParsedLine → Str
  | .commentOrBlank c => c
  | .entry k v _ _ _ sg => (k ++ sg ++ v) ++ ['\n']

theorem goodLine_entry_body_nl {k v ov : Str} {ln : Nat} {wm : Bool} {sg : Str}
    (hg : GoodLine (.entry k v ov ln wm sg)) : ∀ x ∈ k ++ sg ++ v, x ≠ '\n' := by
  obtain ⟨⟨-, hkall, -, -⟩, ⟨hvnl, -, -⟩, ⟨a, c, b, hsgeq, hcsep, ha, hb⟩, -⟩ := hg
  intro x hx
  rw [List.mem_append, List.mem_append] at hx
  rcases hx with (hx | hx) | hx
  · intro he
    subst he
    exact absurd (simpleKeyChar_not_space (hkall _ hx)) (by decide)
  · subst hsgeq
    rw [List.mem_append, List.mem_cons] at hx
    rcases hx with hx | hx | hx
    · exact (ha x hx).2
    · subst hx; exact isSepChar_ne_newline hcsep
    · exact (hb x hx).2
  · exact hvnl x hx

theorem chunkOf_good_shape {pl : ParsedLine} (hg : GoodLine pl) :
    ∃ body, chunkOf pl = body ++ ['\n'] ∧ ∀ x ∈ body, x ≠ '\n' := by
  cases pl with
  | commentOrBlank c =>
    obtain ⟨body, hc, hnl, -⟩ := hg
    exact ⟨body, hc, hnl⟩
  | entry k v ov ln wm sg =>
    exact ⟨k ++ sg ++ v, rfl, goodLine_entry_body_nl hg⟩

theorem reassemble_good_eq_chunks : ∀ (pls : List ParsedLine),
    (∀ pl ∈ pls, GoodLine pl) →
    reassemble_file pls = (pls.map chunkOf).flatten := by
  intro pls
  induction pls with
  | nil => intro _; rfl
  | cons pl rest ih =>
    intro h
    have hg := h pl (List.mem_cons_self _ _)
    have hrest := ih (fun x hx => h x (List.mem_cons_of_mem _ hx))
    cases pl with
    | commentOrBlank c =>
      rw [reassemble_file_cons_comment, hrest]
      rfl
    | entry k v ov ln wm sg =>
      have hwm : wm = false := hg.2.2.2
      subst hwm
      have hvnl : '\n' ∉ v := fun hmem =>
        hg.2.1.1 '\n' hmem rfl
      rw [reassemble_file_cons_entry_plain _ _ _ _ _ _ hvnl, hrest]
      show k ++ sg ++ v ++ ['\n'] ++ _ = ((k ++ sg ++ v) ++ ['\n']) ++ _
      simp [List.append_assoc]

theorem parse_simple_good : ∀ (chunks : List Str) (i : Nat),
    (∀ ch ∈ chunks, simpleChunkB ch = true ∧ ch ≠ [] ∧ ∀ x ∈ ch.dropLast, x ≠ '\n') →
    ∀ pl ∈ parseLinesAux chunks i, GoodLine pl := by
  intro chunks
  induction chunks with
  | nil => intro i _ pl hpl; rw [parseLinesAux_nil] at hpl; simp at hpl
  | cons ch rest ih =>
    intro i h pl hpl
    obtain ⟨hs, hne, hnl⟩ := h ch (List.mem_cons_self _ _)
    unfold simpleChunkB at hs
    rw [Bool.and_eq_true] at hs
    have hlast : ch.getLast hne = '\n' := by
      have h1 := List.getLast?_eq_getLast ch hne
      rw [h1] at hs
      have h2 := beq_iff_eq.mp hs.1
      injection h2
    have hch : ch = ch.dropLast ++ ['\n'] := by
      conv_lhs => rw [← List.dropLast_append_getLast hne, hlast]
    by_cases hcb : commentLineB ch.dropLast = true
    · rw [hch, parseLinesAux_cons_comment _ rest i (by
        rw [rstripNewlines_append_newline _ hnl]
        exact hcb)] at hpl
      rw [List.mem_cons] at hpl
      rcases hpl with hpl | hpl
      · subst hpl
        exact ⟨ch.dropLast, rfl, hnl, hcb⟩
      · exact ih (i + 1) (fun c hc => h c (List.mem_cons_of_mem _ hc)) pl hpl
    · have hsb : simpleEntryLineB ch.dropLast = true := by
        rcases Bool.or_eq_true _ _ |>.mp hs.2 with hx | hx
        · exact absurd hx hcb
        · exact hx
      obtain ⟨j, hj, hstep⟩ := parseLinesAux_simple_entry_chunk ch.dropLast rest i hnl
        (Bool.not_eq_true _ |>.mp hcb) hsb
      rw [hch, hstep, List.mem_cons] at hpl
      rcases hpl with hpl | hpl
      · subst hpl
        obtain ⟨hgk, hgv, hgs⟩ := parsed_entry_good ch.dropLast hnl hsb j hj
        exact ⟨hgk, hgv, hgs, rfl⟩
      · exact ih (i + 1) (fun c hc => h c (List.mem_cons_of_mem _ hc)) pl hpl

theorem parse_chunks_good : ∀ (pls : List ParsedLine) (i : Nat),
    (∀ pl ∈ pls, GoodLine pl) →
    (parseLinesAux (pls.map chunkOf) i).filterMap ParsedLine.entryKey?
      = pls.filterMap ParsedLine.entryKey? := by
  intro pls
  induction pls with
  | nil => intro i _; rfl
  | cons pl rest ih =>
    intro i h
    have hg := h pl (List.mem_cons_self _ _)
    have hrest := ih (i + 1) (fun x hx => h x (List.mem_cons_of_mem _ hx))
    cases pl with
    | commentOrBlank c =>
      obtain ⟨body, hc, hnl, hcb⟩ := hg
      show (parseLinesAux (c :: rest.map chunkOf) i).filterMap ParsedLine.entryKey? = _
      rw [hc, parseLinesAux_cons_comment _ _ i (by
        rw [rstripNewlines_append_newline _ hnl]
        exact hcb)]
      rw [List.filterMap_cons]
      dsimp only [ParsedLine.entryKey?]
      rw [hrest]
      rfl
    | entry k v ov ln wm sg =>
      obtain ⟨hgk, hgv, hgs, hwm⟩ := hg
      subst hwm
      show (parseLinesAux (((k ++ sg ++ v) ++ ['\n']) :: rest.map chunkOf) i).filterMap
          ParsedLine.entryKey? = _
      have hassoc : (k ++ sg ++ v) ++ ['\n'] = k ++ sg ++ v ++ ['\n'] := by
        simp [List.append_assoc]
      rw [hassoc, parseLinesAux_good_entry k v sg hgk hgv hgs _ i]
      rw [List.filterMap_cons, List.filterMap_cons]
      dsimp only [ParsedLine.entryKey?]
      rw [hrest]

theorem dictInsert_keys_mem (m : List (Str × Str)) (k0 v k' : Str) :
    k' ∈ (dictInsert m k0 v).map Prod.fst ↔ k' = k0 ∨ k' ∈ m.map Prod.fst := by
  unfold dictInsert
  by_cases hany : m.any (fun p => p.1 == k0) = true
  · rw [if_pos hany]
    have hkeys : (m.map (fun p => if p.1 == k0 then (k0, v) else p)).map Prod.fst
        = m.map Prod.fst := by
      rw [List.map_map]
      apply List.map_congr_left
      intro p _
      dsimp only [Function.comp]
      by_cases hp : p.1 == k0
      · rw [if_pos hp]
        exact (beq_iff_eq.mp hp).symm
      · rw [if_neg hp]
    rw [hkeys]
    have hk0 : k0 ∈ m.map Prod.fst := by
      rw [List.any_eq_true] at hany
      obtain ⟨p, hp, hpk⟩ := hany
      exact List.mem_map.mpr ⟨p, hp, beq_iff_eq.mp hpk⟩
    constructor
    · intro h; exact Or.inr h
    · rintro (h | h)
      · subst h; exact hk0
      · exact h
  · rw [if_neg hany]
    rw [List.map_append, List.mem_append]
    simp [or_comm]
theorem foldl_trans_keys : ∀ (pls : List ParsedLine) (m : List (Str × Str)) (k' : Str),
    k' ∈ (pls.foldl
      (fun m pl =>
        match pl with
        | .entry k v _ _ _ _ => dictInsert m k v
        | .commentOrBlank _ => m) m).map Prod.fst ↔
      k' ∈ m.map Prod.fst ∨ k' ∈ pls.filterMap ParsedLine.entryKey? := by
  intro pls
  induction pls with
  | nil => intro m k'; simp
  | cons pl rest ih =>
    intro m k'
    rw [List.foldl_cons]
    cases pl with
    | commentOrBlank c =>
      rw [ih]
      rw [List.filterMap_cons]
      rfl
    | entry k v ov ln wm sg =>
      rw [ih, dictInsert_keys_mem]
      rw [List.filterMap_cons]
      dsimp only [ParsedLine.entryKey?]
      rw [List.mem_cons]
      tauto

theorem buildTranslations_keys (pls : List ParsedLine) (k' : Str) :
    k' ∈ (buildTranslations pls).map Prod.fst ↔
      k' ∈ pls.filterMap ParsedLine.entryKey? := by
  unfold buildTranslations
  rw [foldl_trans_keys]
  simp

theorem dictInsert_mem (m : List (Str × Str)) (k0 v : Str) (kv : Str × Str)
    (h : kv ∈ dictInsert m k0 v) : kv ∈ m ∨ kv = (k0, v) := by
  unfold dictInsert at h
  split at h
  · rw [List.mem_map] at h
    obtain ⟨p, hp, hpe⟩ := h
    by_cases hpk : p.1 == k0
    · rw [if_pos hpk] at hpe
      exact Or.inr hpe.symm
    · rw [if_neg hpk] at hpe
      exact Or.inl (hpe ▸ hp)
  · rw [List.mem_append] at h
    rcases h with h | h
    · exact Or.inl h
    · rw [List.mem_singleton] at h
      exact Or.inr h

theorem foldl_trans_mem : ∀ (pls : List ParsedLine) (m : List (Str × Str)) (kv : Str × Str),
    kv ∈ pls.foldl
      (fun m pl =>
        match pl with
        | .entry k v _ _ _ _ => dictInsert m k v
        | .commentOrBlank _ => m) m →
    kv ∈ m ∨ ∃ pl ∈ pls, ∃ ov ln wm sg, pl = .entry kv.1 kv.2 ov ln wm sg := by
  intro pls
  induction pls with
  | nil => intro m kv h; exact Or.inl h
  | cons pl rest ih =>
    intro m kv h
    rw [List.foldl_cons] at h
    cases pl with
    | commentOrBlank c =>
      rcases ih m kv h with h1 | ⟨pl', hpl', hex⟩
      · exact Or.inl h1
      · exact Or.inr ⟨pl', List.mem_cons_of_mem _ hpl', hex⟩
    | entry k v ov ln wm sg =>
      rcases ih (dictInsert m k v) kv h with h1 | ⟨pl', hpl', hex⟩
      · rcases dictInsert_mem m k v kv h1 with h2 | h2
        · exact Or.inl h2
        · refine Or.inr ⟨.entry k v ov ln wm sg, List.mem_cons_self _ _,
            ov, ln, wm, sg, ?_⟩
          rw [h2]
      · exact Or.inr ⟨pl', List.mem_cons_of_mem _ hpl', hex⟩

theorem buildTranslations_mem (pls : List ParsedLine) (kv : Str × Str)
    (h : kv ∈ buildTranslations pls) :
    ∃ pl ∈ pls, ∃ ov ln wm sg, pl = .entry kv.1 kv.2 ov ln wm sg := by
  rcases foldl_trans_mem pls [] kv h with h1 | h1
  · simp at h1
  · exact h1

theorem dictGet?_mem (m : List (Str × Str)) (k v : Str)
    (h : dictGet? m k = some v) : (k, v) ∈ m := by
  unfold dictGet? at h
  rw [Option.map_eq_some'] at h
  obtain ⟨p, hfind, hpv⟩ := h
  have hmem := List.mem_of_find?_eq_some hfind
  have hpk := List.find?_some hfind
  rw [beq_iff_eq] at hpk
  have : p = (k, v) := by
    rw [Prod.ext_iff]
    exact ⟨hpk, hpv⟩
  rwa [this] at hmem

theorem keysOf_mem (m : List (Str × Str)) (k : Str) :
    k ∈ keysOf m ↔ k ∈ m.map Prod.fst := by
  unfold keysOf
  exact List.mem_toFinset

theorem keysOf_iff_dictGet? (m : List (Str × Str)) (k : Str) :
    k ∈ keysOf m ↔ ∃ v, dictGet? m k = some v := by
  rw [keysOf_mem]
  constructor
  · intro h
    rw [List.mem_map] at h
    obtain ⟨p, hp, hpk⟩ := h
    unfold dictGet?
    have : (m.find? (fun p => p.1 == k)).isSome = true := by
      rw [List.find?_isSome]
      exact ⟨p, hp, by rw [beq_iff_eq]; exact hpk⟩
    obtain ⟨q, hq⟩ := Option.isSome_iff_exists.mp this
    exact ⟨q.2, by rw [hq]; rfl⟩
  · rintro ⟨v, hv⟩
    exact List.mem_map.mpr ⟨(k, v), dictGet?_mem m k v hv, rfl⟩

theorem missingKeyEntry_key (k : Str) (src : List (Str × Str))
    (spl : List ParsedLine) (idx : Nat) :
    (missingKeyEntry k src spl idx).entryKey? = some k := by
  unfold missingKeyEntry
  cases h : lastEntry? spl k with
  | none => rfl
  | some pl => cases pl <;> rfl

theorem lastEntry?_mem (spl : List ParsedLine) (k : Str) (pl : ParsedLine)
    (h : lastEntry? spl k = some pl) : pl ∈ spl ∧ pl.entryKey? = some k := by
  unfold lastEntry? at h
  refine ⟨List.mem_reverse.mp (List.mem_of_find?_eq_some h), ?_⟩
  have := List.find?_some h
  rwa [beq_iff_eq] at this

theorem pyListInsert_mem (l : List ParsedLine) (i : Nat) (x : ParsedLine)
    (pl : ParsedLine) : pl ∈ pyListInsert l i x ↔ pl = x ∨ pl ∈ l := by
  unfold pyListInsert
  exact List.mem_insertIdx (Nat.min_le_right _ _)

/-- The generic fold of `synchronizeFinalLines`: entry-key membership. -/
theorem foldl_insert_keys (missing : Finset Str) (src : List (Str × Str))
    (order : List Str) (spl : List ParsedLine) :
    ∀ (keys : List Str) (fin : List ParsedLine) (k' : Str),
    (k' ∈ (keys.foldl
      (fun fin key =>
        if key ∈ missing then
          pyListInsert fin
            (find_insertion_index_for_missing_key key order spl
              (lastEntryIdx? spl) fin)
            (missingKeyEntry key src spl
              (find_insertion_index_for_missing_key key order spl
                (lastEntryIdx? spl) fin))
        else fin) fin).filterMap ParsedLine.entryKey? ↔
      k' ∈ fin.filterMap ParsedLine.entryKey? ∨ (k' ∈ keys ∧ k' ∈ missing)) := by
  intro keys
  induction keys with
  | nil => intro fin k'; simp
  | cons key rest ih =>
    intro fin k'
    rw [List.foldl_cons]
    by_cases hm : key ∈ missing
    · rw [if_pos hm, ih]
      have hid : k' ∈ (pyListInsert fin
          (find_insertion_index_for_missing_key key order spl (lastEntryIdx? spl) fin)
          (missingKeyEntry key src spl
            (find_insertion_index_for_missing_key key order spl
              (lastEntryIdx? spl) fin))).filterMap ParsedLine.entryKey? ↔
          k' = key ∨ k' ∈ fin.filterMap ParsedLine.entryKey? := by
        rw [List.mem_filterMap]
        constructor
        · rintro ⟨pl, hpl, hke⟩
          rw [pyListInsert_mem] at hpl
          rcases hpl with hpl | hpl
          · subst hpl
            rw [missingKeyEntry_key] at hke
            injection hke with hke
            exact Or.inl hke.symm
          · exact Or.inr (List.mem_filterMap.mpr ⟨pl, hpl, hke⟩)
        · rintro (h | h)
          · subst h
            exact ⟨_, (pyListInsert_mem _ _ _ _).mpr (Or.inl rfl), missingKeyEntry_key _ _ _ _⟩
          · obtain ⟨pl, hpl, hke⟩ := List.mem_filterMap.mp h
            exact ⟨pl, (pyListInsert_mem _ _ _ _).mpr (Or.inr hpl), hke⟩
      rw [hid]
      rw [List.mem_cons]
      constructor
      · rintro ((h | h) | h)
        · subst h; exact Or.inr ⟨Or.inl rfl, hm⟩
        · exact Or.inl h
        · exact Or.inr ⟨Or.inr h.1, h.2⟩
      · rintro (h | ⟨(h1 | h1), h2⟩)
        · exact Or.inl (Or.inr h)
        · subst h1; exact Or.inl (Or.inl rfl)
        · exact Or.inr ⟨h1, h2⟩
    · rw [if_neg hm, ih, List.mem_cons]
      constructor
      · rintro (h | h)
        · exact Or.inl h
        · exact Or.inr ⟨Or.inr h.1, h.2⟩
      · rintro (h | ⟨(h1 | h1), h2⟩)
        · exact Or.inl h
        · subst h1; exact absurd h2 hm
        · exact Or.inr ⟨h1, h2⟩

/-- The generic fold of `synchronizeFinalLines`: goodness preservation. -/
theorem foldl_insert_good (missing : Finset Str) (src : List (Str × Str))
    (order : List Str) (spl : List ParsedLine)
    (hsrcv : ∀ kv ∈ src, goodValue kv.2)
    (hsplg : ∀ pl ∈ spl, GoodLine pl) :
    ∀ (keys : List Str) (fin : List ParsedLine),
    (∀ k ∈ keys, k ∈ missing → goodKey k) →
    (∀ pl ∈ fin, GoodLine pl) →
    ∀ pl ∈ keys.foldl
      (fun fin key =>
        if key ∈ missing then
          pyListInsert fin
            (find_insertion_index_for_missing_key key order spl
              (lastEntryIdx? spl) fin)
            (missingKeyEntry key src spl
              (find_insertion_index_for_missing_key key order spl
                (lastEntryIdx? spl) fin))
        else fin) fin, GoodLine pl := by
  intro keys
  induction keys with
  | nil => intro fin _ hfin pl hpl; exact hfin pl hpl
  | cons key rest ih =>
    intro fin hkeys hfin pl hpl
    rw [List.foldl_cons] at hpl
    by_cases hm : key ∈ missing
    · rw [if_pos hm] at hpl
      refine ih _ (fun k hk => hkeys k (List.mem_cons_of_mem _ hk)) ?_ pl hpl
      intro pl' hpl'
      rw [pyListInsert_mem] at hpl'
      rcases hpl' with hpl' | hpl'
      · subst hpl'
        -- the inserted entry is good
        have hgv : goodValue (dictGetD src key []) := by
          unfold dictGetD
          cases hget : dictGet? src key with
          | none => exact ⟨by simp, rfl, by simp⟩
          | some v =>
            have := dictGet?_mem src key v hget
            exact hsrcv (key, v) this
        have hgk : goodKey key := hkeys key (List.mem_cons_self _ _) hm
        unfold missingKeyEntry
        cases hle : lastEntry? spl key with
        | none => exact ⟨hgk, hgv, ⟨[], '=', [], rfl, rfl, by simp, by simp⟩, rfl⟩
        | some ple =>
          obtain ⟨hmem, hkey⟩ := lastEntry?_mem spl key ple hle
          cases ple with
          | commentOrBlank c =>
            exact ⟨hgk, hgv, ⟨[], '=', [], rfl, rfl, by simp, by simp⟩, rfl⟩
          | entry k2 v2 ov2 ln2 wm2 sg2 =>
            obtain ⟨-, -, hgs2, hwm2⟩ := hsplg _ hmem
            exact ⟨hgk, hgv, hgs2, hwm2⟩
      · exact hfin pl' hpl'
    · rw [if_neg hm] at hpl
      exact ih _ (fun k hk => hkeys k (List.mem_cons_of_mem _ hk)) hfin pl hpl

theorem parse_file_good (c : Str) (h : simplePFile c = true) :
    ∀ pl ∈ (parse_properties_file c).1, GoodLine pl := by
  unfold parse_properties_file
  dsimp only
  apply parse_simple_good
  intro ch hch
  rw [simplePFile, List.all_eq_true] at h
  exact ⟨h ch hch, (readlines_chunk_shape c ch hch).1, (readlines_chunk_shape c ch hch).2⟩

theorem goodKey_of_mem_entryKeys (pls : List ParsedLine)
    (hg : ∀ pl ∈ pls, GoodLine pl) (k : Str)
    (hk : k ∈ pls.filterMap ParsedLine.entryKey?) : goodKey k := by
  obtain ⟨pl, hpl, hke⟩ := List.mem_filterMap.mp hk
  cases pl with
  | commentOrBlank c => exact absurd hke (by simp [ParsedLine.entryKey?])
  | entry k2 v ov ln wm sg =>
    have : k2 = k := by
      dsimp only [ParsedLine.entryKey?] at hke
      injection hke
    subst this
    exact (hg _ hpl).1

theorem buildTranslations_good (pls : List ParsedLine)
    (hg : ∀ pl ∈ pls, GoodLine pl) :
    ∀ kv ∈ buildTranslations pls, goodValue kv.2 := by
  intro kv hkv
  obtain ⟨pl, hpl, ov, ln, wm, sg, hple⟩ := buildTranslations_mem pls kv hkv
  subst hple
  exact (hg _ hpl).2.1

theorem parse_reassemble_keys (final : List ParsedLine)
    (hg : ∀ pl ∈ final, GoodLine pl) (k : Str) :
    k ∈ keysOf (parse_properties_file (reassemble_file final)).2 ↔
      k ∈ final.filterMap ParsedLine.entryKey? := by
  rw [keysOf_mem]
  show k ∈ (buildTranslations
    (parseLinesAux (readlines (reassemble_file final)) 0)).map Prod.fst ↔ _
  rw [buildTranslations_keys]
  rw [reassemble_good_eq_chunks final hg]
  rw [readlines_of_chunks _ (by
    intro ch hch
    obtain ⟨pl, hpl, hche⟩ := List.mem_map.mp hch
    subst hche
    exact chunkOf_good_shape (hg pl hpl))]
  rw [parse_chunks_good final 0 hg]

theorem synchronizeFinalLines_keys (tpl spl : List ParsedLine)
    (str : List (Str × Str)) (missing extra : Finset Str) (k' : Str) :
    k' ∈ (synchronizeFinalLines tpl spl str missing extra).filterMap
        ParsedLine.entryKey? ↔
      (k' ∈ tpl.filterMap ParsedLine.entryKey? ∧ k' ∉ extra) ∨
      (k' ∈ spl.filterMap ParsedLine.entryKey? ∧ k' ∈ missing) := by
  unfold synchronizeFinalLines
  dsimp only
  rw [foldl_insert_keys]
  have hfinal0 : k' ∈ (tpl.filter fun l =>
      match l.entryKey? with
      | some k => decide (k ∉ extra)
      | none => true).filterMap ParsedLine.entryKey? ↔
      k' ∈ tpl.filterMap ParsedLine.entryKey? ∧ k' ∉ extra := by
    rw [List.mem_filterMap]
    constructor
    · rintro ⟨pl, hpl, hke⟩
      rw [List.mem_filter] at hpl
      refine ⟨List.mem_filterMap.mpr ⟨pl, hpl.1, hke⟩, ?_⟩
      have := hpl.2
      rw [hke] at this
      simpa using this
    · rintro ⟨h1, h2⟩
      obtain ⟨pl, hpl, hke⟩ := List.mem_filterMap.mp h1
      refine ⟨pl, List.mem_filter.mpr ⟨hpl, ?_⟩, hke⟩
      rw [hke]
      simpa using h2
  rw [hfinal0]

theorem synchronizeFinalLines_good (tpl spl : List ParsedLine)
    (str : List (Str × Str)) (missing extra : Finset Str)
    (htpl : ∀ pl ∈ tpl, GoodLine pl) (hspl : ∀ pl ∈ spl, GoodLine pl)
    (hsrcv : ∀ kv ∈ str, goodValue kv.2)
    (hmiss : ∀ k ∈ missing, k ∈ spl.filterMap ParsedLine.entryKey?) :
    ∀ pl ∈ synchronizeFinalLines tpl spl str missing extra, GoodLine pl := by
  unfold synchronizeFinalLines
  dsimp only
  apply foldl_insert_good missing str _ spl hsrcv hspl
  · intro k hk hkm
    exact goodKey_of_mem_entryKeys spl hspl k (hmiss k hkm)
  · intro pl hpl
    exact htpl pl (List.mem_filter.mp hpl).1

theorem parse_keysOf_mem (c : Str) (k : Str) :
    k ∈ keysOf (parse_properties_file c).2 ↔
      k ∈ (parse_properties_file c).1.filterMap ParsedLine.entryKey? := by
  rw [keysOf_mem]
  show k ∈ (buildTranslations (parse_properties_file c).1).map Prod.fst ↔ _
  exact buildTranslations_keys _ k

/-- On simple files, one `synchronize_keys` run makes the target key set equal
to the source key set. -/
theorem synchronize_keys_keysOf (target source : Str)
    (ht : simplePFile target = true) (hs : simplePFile source = true) :
    keysOf (parse_properties_file (synchronize_keys target source).2.2).2
      = keysOf (parse_properties_file source).2 := by
  have htg := parse_file_good target ht
  have hsg := parse_file_good source hs
  unfold synchronize_keys
  dsimp only
  by_cases hc : (check_key_coverage (keysOf (parse_properties_file source).2)
      (keysOf (parse_properties_file target).2)).1 = ∅ ∧
      (check_key_coverage (keysOf (parse_properties_file source).2)
      (keysOf (parse_properties_file target).2)).2 = ∅
  · rw [if_pos hc]
    dsimp only
    obtain ⟨h1, h2⟩ := hc
    unfold check_key_coverage at h1 h2
    dsimp only at h1 h2
    rw [Finset.sdiff_eq_empty_iff_subset] at h1 h2
    exact Finset.Subset.antisymm h2 h1
  · rw [if_neg hc]
    dsimp only
    have hsrcv : ∀ kv ∈ (parse_properties_file source).2, goodValue kv.2 := by
      intro kv hkv
      exact buildTranslations_good (parse_properties_file source).1 hsg kv hkv
    have hmiss : ∀ k ∈ (check_key_coverage (keysOf (parse_properties_file source).2)
        (keysOf (parse_properties_file target).2)).1,
        k ∈ (parse_properties_file source).1.filterMap ParsedLine.entryKey? := by
      intro k hk
      unfold check_key_coverage at hk
      dsimp only at hk
      rw [Finset.mem_sdiff] at hk
      exact (parse_keysOf_mem source k).mp hk.1
    have hfing := synchronizeFinalLines_good (parse_properties_file target).1
      (parse_properties_file source).1 (parse_properties_file source).2
      (check_key_coverage (keysOf (parse_properties_file source).2)
        (keysOf (parse_properties_file target).2)).1
      (check_key_coverage (keysOf (parse_properties_file source).2)
        (keysOf (parse_properties_file target).2)).2
      htg hsg hsrcv hmiss
    apply Finset.ext
    intro k
    rw [parse_reassemble_keys _ hfing]
    rw [synchronizeFinalLines_keys]
    rw [parse_keysOf_mem source k]
    constructor
    · rintro (⟨h1, h2⟩ | ⟨h1, _⟩)
      · by_contra hns
        apply h2
        unfold check_key_coverage
        dsimp only
        rw [Finset.mem_sdiff]
        refine ⟨(parse_keysOf_mem target k).mpr h1, fun hkS => ?_⟩
        exact hns ((parse_keysOf_mem source k).mp hkS)
      · exact h1
    · intro h1
      by_cases hT : k ∈ (parse_properties_file target).1.filterMap ParsedLine.entryKey?
      · left
        refine ⟨hT, ?_⟩
        unfold check_key_coverage
        dsimp only
        rw [Finset.mem_sdiff]
        rintro ⟨-, hnotS⟩
        exact hnotS ((parse_keysOf_mem source k).mpr h1)
      · right
        refine ⟨h1, ?_⟩
        unfold check_key_coverage
        dsimp only
        rw [Finset.mem_sdiff]
        exact ⟨(parse_keysOf_mem source k).mpr h1,
          fun hc2 => hT ((parse_keysOf_mem target k).mp hc2)⟩

/-- **C3 (counterexample).** The claim fails on general parseable files: with
source `a\=b=c` (escaped separator in the key, key parses as `a=b`) and an
empty target, the rewritten target's key set is `\x7b"a"\x7d ≠ \x7b"a=b"\x7d`
— `reassemble_file` writes the unescaped key, which reparses differently —
and a second run is not a no-op (its missing set is nonempty). -/
theorem synchronize_keys_not_convergent :
    keysOf (parse_properties_file
        (synchronize_keys [] (chars "a\\=b=c\n")).2.2).2 ≠
      keysOf (parse_properties_file (chars "a\\=b=c\n")).2 ∧
    (synchronize_keys (synchronize_keys [] (chars "a\\=b=c\n")).2.2
        (chars "a\\=b=c\n")).1 ≠ ∅ := by
  decide

/-- **C3 (amended).** For target and source files in the simple class
(newline-terminated lines, each a comment/blank or a one-line entry whose raw
key has no whitespace, separator or backslash characters and whose value has
no unescaped trailing backslash), `synchronize_keys` converges: after one run
the rewritten target's key set equals the source's key set exactly, and a
second run with the unchanged source returns two empty sets and leaves the
content untouched. -/
theorem synchronize_keys_convergent (target source : Str)
    (ht : simplePFile target = true) (hs : simplePFile source = true) :
    keysOf (parse_properties_file (synchronize_keys target source).2.2).2
      = keysOf (parse_properties_file source).2 ∧
    synchronize_keys (synchronize_keys target source).2.2 source
      = (∅, ∅, (synchronize_keys target source).2.2) := by
  have hkeys := synchronize_keys_keysOf target source ht hs
  refine ⟨hkeys, ?_⟩
  generalize hgen : (synchronize_keys target source).2.2 = out at hkeys ⊢
  have hcc : check_key_coverage (keysOf (parse_properties_file source).2)
      (keysOf (parse_properties_file out).2) = (∅, ∅) := by
    unfold check_key_coverage
    rw [hkeys]
    simp
  unfold synchronize_keys
  dsimp only
  rw [hcc]
  simp

theorem synchronize_keys_convergent_witness :
    simplePFile (chars "# c\nk1 = v1\n") = true ∧
    simplePFile (chars "k2=w\nk1=x\n") = true ∧
    (keysOf (parse_properties_file
        (synchronize_keys (chars "# c\nk1 = v1\n") (chars "k2=w\nk1=x\n")).2.2).2
      = keysOf (parse_properties_file (chars "k2=w\nk1=x\n")).2 ∧
     synchronize_keys
        (synchronize_keys (chars "# c\nk1 = v1\n") (chars "k2=w\nk1=x\n")).2.2
        (chars "k2=w\nk1=x\n")
      = (∅, ∅, (synchronize_keys (chars "# c\nk1 = v1\n")
          (chars "k2=w\nk1=x\n")).2.2)) :=
  ⟨by decide, by decide,
    synchronize_keys_convergent _ _ (by decide) (by decide)⟩


/-! ## C10: placeholder protection round trip -/

theorem getD_append_add {α} (X Y : List α) (k : Nat) (d : α) :
    (X ++ Y).getD (X.length + k) d = Y.getD k d := by
  induction X with
  | nil => simp
  | cons x xs ih => simpa [Nat.succ_add] using ih

theorem mem_of_getD {α} (l : List α) (i : Nat) (d : α) (h : i < l.length) :
    l.getD i d ∈ l := by
  rw [List.getD_eq_getElem l d h]
  exact List.getElem_mem h

theorem prefix_drop_getD (pat u : Str) (r j : Nat) (h : pat <+: u.drop r)
    (hj : j < pat.length) (d : Char) : u.getD (r + j) d = pat.getD j d := by
  obtain ⟨t, ht⟩ := h
  have h1 : u.getD (r + j) d = (u.drop r).getD j d := by
    rw [List.getD_eq_getElem?_getD, List.getD_eq_getElem?_getD, List.getElem?_drop]
  rw [h1, ← ht, getD_append_lt _ _ _ _ hj]

theorem prefix_append_of_le (pat x y : Str) (h : pat <+: x ++ y)
    (hl : pat.length ≤ x.length) : pat <+: x := by
  have h2 : pat = (x ++ y).take pat.length := List.prefix_iff_eq_take.mp h
  rw [List.take_append_of_le_length hl] at h2
  rw [h2]
  exact List.take_prefix _ _

theorem no_occ_in_piece (pat piece text : Str) (hinf : piece <:+: text)
    (r : Nat) (hr : pat <+: piece.drop r)
    (hfresh : ∀ q, ¬ pat <+: text.drop q) : False := by
  obtain ⟨u, v, huv⟩ := hinf
  apply hfresh (u.length + r)
  rw [← huv, List.append_assoc, ← List.drop_drop, List.drop_left,
    List.drop_append_eq_append_drop]
  exact hr.trans (List.prefix_append _ _)

theorem isSubstring_eq_false (pat s : Str) (h : isSubstring pat s = false) :
    ∀ r, ¬ pat <+: s.drop r := by
  intro r hpre
  unfold isSubstring at h
  by_cases hrs : r ≤ s.length
  · have h1 := (List.any_eq_false.mp h) r (List.mem_range.mpr (by omega))
    simp only at h1
    rw [← List.isPrefixOf_iff_prefix] at hpre
    simp [hpre] at h1
  · have hnil : pat = [] := by
      have hd : s.drop r = [] := List.drop_eq_nil_of_le (by omega)
      rw [hd] at hpre
      exact List.prefix_nil.mp hpre
    subst hnil
    have h1 := (List.any_eq_false.mp h) 0 (List.mem_range.mpr (by omega))
    simp [List.isPrefixOf] at h1

theorem infix_flatten_of_mem {α} (l : List (List α)) (x : List α) (h : x ∈ l) :
    x <:+: l.flatten := by
  obtain ⟨a, b, rfl⟩ := List.append_of_mem h
  refine ⟨a.flatten, b.flatten, ?_⟩
  rw [List.flatten_append, List.flatten_cons, List.append_assoc]

theorem length_le_length_flatten {α} (l : List (List α))
    (h : ∀ x ∈ l, x ≠ []) : l.length ≤ l.flatten.length := by
  induction l with
  | nil => simp
  | cons x xs ih =>
    rw [List.flatten_cons, List.length_append, List.length_cons]
    have hx : 1 ≤ x.length := by
      have := h x (List.mem_cons_self _ _)
      cases x with
      | nil => exact absurd rfl this
      | cons c t => simp
    have := ih (fun y hy => h y (List.mem_cons_of_mem _ hy))
    omega

theorem scanDelim_sound (oc cc : Char) : ∀ (s acc body rest : Str),
    scanDelim oc cc s acc = some (body, rest) →
    acc.reverse ++ s = body ++ cc :: rest := by
  intro s
  induction s with
  | nil => intro acc body rest h; simp [scanDelim] at h
  | cons c t ih =>
    intro acc body rest h
    rw [scanDelim] at h
    split at h
    · rename_i hcc
      split at h
      · exact absurd h (by simp)
      · simp only [Option.some.injEq, Prod.mk.injEq] at h
        obtain ⟨hb, hr⟩ := h
        subst hb
        subst hr
        have hc : c = cc := by simpa using hcc
        rw [hc]
    · split at h
      · exact absurd h (by simp)
      · have h2 := ih (c :: acc) body rest h
        simpa [List.append_assoc] using h2

/-- Interleaving of literal segments and placeholder tokens: the shape of the
processed text, and of every intermediate restoration state. -/
def buildP (gen : Nat → Str) : Str → List (Nat × Str) → Str
  | head, [] => head
  | head, q :: ps => head ++ phToken (gen q.1) ++ buildP gen q.2 ps

theorem buildP_append (gen : Nat → Str) (x y : Str) (ps : List (Nat × Str)) :
    buildP gen (x ++ y) ps = x ++ buildP gen y ps := by
  cases ps with
  | nil => rfl
  | cons q ps' => simp [buildP, List.append_assoc]

theorem buildP_length_ge (gen : Nat → Str) (head : Str) (ps : List (Nat × Str)) :
    head.length ≤ (buildP gen head ps).length := by
  cases ps with
  | nil => exact Nat.le_refl _
  | cons q ps' => simp [buildP]

theorem phToken_length (core : Str) (hl : core.length = 32) :
    (phToken core).length = 39 := by
  simp [phToken, chars, hl]

theorem phToken_getD_underscore (core : Str) (hl : core.length = 32) (k : Nat)
    (hk : k = 0 ∨ k = 1 ∨ k = 4 ∨ k = 37 ∨ k = 38) (d : Char) :
    (phToken core).getD k d = '_' := by
  rcases hk with hk | hk | hk | hk | hk <;> subst hk
  · rw [phToken, getD_append_lt _ _ _ _ (by simp [chars])]
    rfl
  · rw [phToken, getD_append_lt _ _ _ _ (by simp [chars])]
    rfl
  · rw [phToken, getD_append_lt _ _ _ _ (by simp [chars])]
    rfl
  · rw [phToken,
      show (37 : Nat) = (chars "__PH_" ++ core).length + 0 from by simp [chars, hl],
      getD_append_add]
    rfl
  · rw [phToken,
      show (38 : Nat) = (chars "__PH_" ++ core).length + 1 from by simp [chars, hl],
      getD_append_add]
    rfl

/-- Where a 32-character underscore-free fresh core can occur in an
interleaving of text segments and tokens: only aligned with a placed token's
core, which must then be equal to it. -/
theorem core_occ (gen : Nat → Str) (text : Str) (i : Nat)
    (hil : (gen i).length = 32) (hiu : '_' ∉ gen i)
    (hif : ∀ q, ¬ gen i <+: text.drop q) :
    ∀ (ps : List (Nat × Str)), ∀ (head : Str), head <:+: text →
    (∀ q ∈ ps, q.2 <:+: text ∧ (gen q.1).length = 32) →
    ∀ r, gen i <+: (buildP gen head ps).drop r →
    ∃ a b j seg, ps = a ++ (j, seg) :: b ∧ gen j = gen i ∧
      r = (buildP gen head a).length + 5 := by
  intro ps
  induction ps with
  | nil =>
    intro head hH _ r hr
    exact (no_occ_in_piece (gen i) head text hH r hr hif).elim
  | cons pr ps' ih =>
    obtain ⟨i0, seg0⟩ := pr
    intro head hH hps r hr
    have hq := hps (i0, seg0) (List.mem_cons_self _ _)
    have hi0l : (gen i0).length = 32 := hq.2
    have htokl : (phToken (gen i0)).length = 39 := phToken_length _ hi0l
    have hu : buildP gen head ((i0, seg0) :: ps') =
        head ++ phToken (gen i0) ++ buildP gen seg0 ps' := rfl
    set B := buildP gen seg0 ps' with hB
    set L := head.length with hL
    have hchar : ∀ k, k < 39 →
        (buildP gen head ((i0, seg0) :: ps')).getD (L + k) '?'
          = (phToken (gen i0)).getD k '?' := by
      intro k hk
      rw [hu]
      rw [getD_append_lt _ _ _ _ (by simp [List.length_append, htokl]; omega)]
      rw [hL, getD_append_add]
    have hframe : ∀ k j, (k = 0 ∨ k = 1 ∨ k = 4 ∨ k = 37 ∨ k = 38) → j < 32 →
        r + j = L + k → False := by
      intro k j hk hj hrk
      apply hiu
      have h1 : (gen i).getD j '?' = '_' := by
        rw [← prefix_drop_getD (gen i) _ r j hr (by omega)]
        rw [hrk, hchar k (by omega)]
        exact phToken_getD_underscore _ hi0l k hk '?'
      have h2 := mem_of_getD (gen i) j '?' (by omega)
      rwa [h1] at h2
    by_cases hc1 : r + 32 ≤ L
    · exfalso
      have hsplit : (buildP gen head ((i0, seg0) :: ps')).drop r
          = head.drop r ++ ((phToken (gen i0) ++ B).drop (r - L)) := by
        rw [hu, List.append_assoc, List.drop_append_eq_append_drop, hL]
      exact no_occ_in_piece (gen i) head text hH r
        (prefix_append_of_le _ _ _ (hsplit ▸ hr)
          (by simp [hil, List.length_drop]; omega)) hif
    · have hcases : r < L ∨ r = L ∨ r = L + 1 ∨ r = L + 2 ∨ r = L + 3 ∨ r = L + 4
          ∨ r = L + 5 ∨ (L + 6 ≤ r ∧ r ≤ L + 37) ∨ r = L + 38 ∨ L + 39 ≤ r := by
        omega
      rcases hcases with h|h|h|h|h|h|h|h|h|h
      · exact (hframe 0 (L - r) (by omega) (by omega) (by omega)).elim
      · exact (hframe 0 0 (by omega) (by omega) (by omega)).elim
      · exact (hframe 1 0 (by omega) (by omega) (by omega)).elim
      · exact (hframe 4 2 (by omega) (by omega) (by omega)).elim
      · exact (hframe 4 1 (by omega) (by omega) (by omega)).elim
      · exact (hframe 4 0 (by omega) (by omega) (by omega)).elim
      · -- aligned with the placed token's core
        have hdrop : (buildP gen head ((i0, seg0) :: ps')).drop r
            = gen i0 ++ (chars "__" ++ B) := by
          have hshape : buildP gen head ((i0, seg0) :: ps')
              = (head ++ chars "__PH_") ++ (gen i0 ++ (chars "__" ++ B)) := by
            rw [hu]
            simp [phToken, List.append_assoc]
          rw [hshape, h,
            show L + 5 = (head ++ chars "__PH_").length from by
              simp [chars, List.length_append]]
          exact List.drop_left _ _
        have hgeq : gen i = gen i0 := by
          have h1 : gen i = ((buildP gen head ((i0, seg0) :: ps')).drop r).take 32 := by
            have h2 := List.prefix_iff_eq_take.mp hr
            rwa [hil] at h2
          rw [hdrop, List.take_append_of_le_length (by omega), ← hi0l,
            List.take_length] at h1
          exact h1
        refine ⟨[], ps', i0, seg0, rfl, hgeq.symm, ?_⟩
        show r = head.length + 5
        omega
      · exact (hframe 37 (L + 37 - r) (by omega) (by omega) (by omega)).elim
      · exact (hframe 38 0 (by omega) (by omega) (by omega)).elim
      · -- strictly after the placed token: recurse into the tail
        have hd : (buildP gen head ((i0, seg0) :: ps')).drop r
            = B.drop (r - (L + 39)) := by
          rw [hu, List.drop_append_eq_append_drop,
            List.drop_eq_nil_of_le
              (by simp [List.length_append, htokl]; omega),
            show r - (head ++ phToken (gen i0)).length = r - (L + 39) from by
              simp [List.length_append, htokl]]
          simp
        have hr' : gen i <+: B.drop (r - (L + 39)) := hd ▸ hr
        obtain ⟨a', b', j, seg, hsp, hg, hr2⟩ := ih seg0 hq.1
          (fun q hq2 => hps q (List.mem_cons_of_mem _ hq2)) _ hr'
        refine ⟨(i0, seg0) :: a', b', j, seg, by rw [hsp, List.cons_append], hg, ?_⟩
        have hblen : (buildP gen head ((i0, seg0) :: a')).length
            = L + 39 + (buildP gen seg0 a').length := by
          show (head ++ phToken (gen i0) ++ buildP gen seg0 a').length = _
          simp [List.length_append, htokl]
          omega
        omega

/-- A token can occur in an interleaving only at the position where a token
with the same core was placed. -/
theorem tok_occ (gen : Nat → Str) (text : Str) (i : Nat)
    (hil : (gen i).length = 32) (hiu : '_' ∉ gen i)
    (hif : ∀ q, ¬ gen i <+: text.drop q)
    (ps : List (Nat × Str)) (head : Str) (hH : head <:+: text)
    (hps : ∀ q ∈ ps, q.2 <:+: text ∧ (gen q.1).length = 32)
    (p : Nat) (hocc : phToken (gen i) <+: (buildP gen head ps).drop p) :
    ∃ a b j seg, ps = a ++ (j, seg) :: b ∧ gen j = gen i ∧
      p = (buildP gen head a).length := by
  have hcore : gen i <+: (buildP gen head ps).drop (p + 5) := by
    obtain ⟨t, ht⟩ := hocc
    have h5 : (buildP gen head ps).drop (p + 5)
        = gen i ++ (chars "__" ++ t) := by
      rw [← List.drop_drop, ← ht]
      rw [show phToken (gen i) ++ t
          = chars "__PH_" ++ (gen i ++ (chars "__" ++ t)) from by
        simp [phToken, List.append_assoc]]
      rw [show (5 : Nat) = (chars "__PH_").length from rfl]
      exact List.drop_left _ _
    rw [h5]
    exact List.prefix_append _ _
  obtain ⟨a, b, j, seg, hsp, hg, hr⟩ :=
    core_occ gen text i hil hiu hif ps head hH hps _ hcore
  exact ⟨a, b, j, seg, hsp, hg, by omega⟩

theorem pyReplace_no_occ : ∀ (s pat rep : Str), pat ≠ [] →
    (∀ r, ¬ pat <+: s.drop r) → pyReplace s pat rep = s := by
  intro s
  induction s with
  | nil => intro pat rep _ _; exact pyReplace_nil pat rep
  | cons c t ih =>
    intro pat rep hne h
    cases pat with
    | nil => exact absurd rfl hne
    | cons p ps =>
      rw [pyReplace_cons_neg c t p ps rep (fun hpre =>
        h 0 (by simpa using List.isPrefixOf_iff_prefix.mp hpre))]
      rw [ih (p :: ps) rep hne (fun r => by simpa using h (r + 1))]

theorem pyReplace_unique_occ : ∀ (a pat b rep : Str), pat ≠ [] →
    (∀ r, r < a.length → ¬ pat <+: (a ++ pat ++ b).drop r) →
    (∀ r, ¬ pat <+: b.drop r) →
    pyReplace (a ++ pat ++ b) pat rep = a ++ rep ++ b := by
  intro a
  induction a with
  | nil =>
    intro pat b rep hne _ hb
    cases pat with
    | nil => exact absurd rfl hne
    | cons p ps =>
      rw [show ([] : Str) ++ (p :: ps) ++ b = p :: (ps ++ b) from by simp]
      rw [pyReplace_cons_pos p (ps ++ b) p ps rep (by
        rw [List.isPrefixOf_iff_prefix]
        exact ⟨b, by simp⟩)]
      rw [List.drop_left]
      rw [pyReplace_no_occ b (p :: ps) rep hne hb]
      simp
  | cons x a' ih =>
    intro pat b rep hne hlt hb
    cases pat with
    | nil => exact absurd rfl hne
    | cons p ps =>
      rw [show (x :: a') ++ (p :: ps) ++ b = x :: (a' ++ (p :: ps) ++ b) from by
        simp]
      rw [pyReplace_cons_neg x _ p ps rep (fun hpre => by
        have h0 := hlt 0 (by simp)
        apply h0
        simpa using List.isPrefixOf_iff_prefix.mp hpre)]
      rw [ih (p :: ps) b rep hne (fun r hr => by
        have h1 := hlt (r + 1) (by simp; omega)
        simpa using h1) hb]
      simp

theorem extractGo_cons_matchT (gen : Nat → Str) (n : Nat) (t body rest : Str)
    (hbr : scanDelim '<' '>' t [] = some (body, rest)) :
    extractGo gen n ('<' :: t) =
      (phToken (gen n) ++ (extractGo gen (n + 1) rest).1,
       (phToken (gen n), '<' :: (body ++ ['>'])) :: (extractGo gen (n + 1) rest).2) := by
  rw [extractGo_cons, hbr]
  rfl

theorem extractGo_cons_skipT (gen : Nat → Str) (n : Nat) (t : Str)
    (hbr : scanDelim '<' '>' t [] = none) :
    extractGo gen n ('<' :: t) =
      ('<' :: (extractGo gen n t).1, (extractGo gen n t).2) := by
  rw [extractGo_cons, hbr]
  rfl

theorem extractGo_cons_matchB (gen : Nat → Str) (n : Nat) (t body rest : Str)
    (hbr : scanDelim '\x7b' '\x7d' t [] = some (body, rest)) :
    extractGo gen n ('\x7b' :: t) =
      (phToken (gen n) ++ (extractGo gen (n + 1) rest).1,
       (phToken (gen n), '\x7b' :: (body ++ ['\x7d'])) :: (extractGo gen (n + 1) rest).2) := by
  rw [extractGo_cons, hbr]
  rfl

theorem extractGo_cons_skipB (gen : Nat → Str) (n : Nat) (t : Str)
    (hbr : scanDelim '\x7b' '\x7d' t [] = none) :
    extractGo gen n ('\x7b' :: t) =
      ('\x7b' :: (extractGo gen n t).1, (extractGo gen n t).2) := by
  rw [extractGo_cons, hbr]
  rfl

theorem extractGo_cons_lit (gen : Nat → Str) (n : Nat) (c : Char) (t : Str)
    (hc1 : (c == '<') = false) (hc2 : (c == '\x7b') = false) :
    extractGo gen n (c :: t) =
      (c :: (extractGo gen n t).1, (extractGo gen n t).2) := by
  rw [extractGo_cons, hc1, hc2]
  rfl

/-- Decomposition of `extractGo`: the input splits into literal segments and
matched substrings; the output text is the interleaving with fresh tokens at
consecutive indices, and the mapping lists the tokens with their matches in
order. -/
theorem extract_structure (gen : Nat → Str) : ∀ (m : Nat) (s : Str) (n : Nat),
    s.length ≤ m →
    ∃ (head : Str) (trips : List (Nat × Str × Str)),
      s = head ++ (trips.map fun tr => tr.2.1 ++ tr.2.2).flatten ∧
      (extractGo gen n s).1 = buildP gen head (trips.map fun tr => (tr.1, tr.2.2)) ∧
      (extractGo gen n s).2 = trips.map (fun tr => (phToken (gen tr.1), tr.2.1)) ∧
      trips.map Prod.fst = List.range' n trips.length ∧
      ∀ tr ∈ trips, tr.2.1 ≠ [] := by
  intro m
  induction m with
  | zero =>
    intro s n hm
    have h0 : s = [] := List.length_eq_zero.mp (Nat.le_zero.mp hm)
    subst h0
    exact ⟨[], [], by simp, by simp [extractGo_nil, buildP], by simp [extractGo_nil],
      rfl, by simp⟩
  | succ m ih =>
    intro s n hm
    cases s with
    | nil =>
      exact ⟨[], [], by simp, by simp [extractGo_nil, buildP], by simp [extractGo_nil],
        rfl, by simp⟩
    | cons c t =>
      simp only [List.length_cons] at hm
      have htm : t.length ≤ m := by omega
      by_cases hc1 : c = '<'
      · subst hc1
        cases hbr : scanDelim '<' '>' t [] with
        | none =>
          obtain ⟨head, trips, h1, h2, h3, h4, h5⟩ := ih t n htm
          refine ⟨'<' :: head, trips, ?_, ?_, ?_, h4, h5⟩
          · rw [List.cons_append, ← h1]
          · rw [extractGo_cons_skipT gen n t hbr, h2,
              show ('<' :: head) = ['<'] ++ head from rfl, buildP_append]
            rfl
          · rw [extractGo_cons_skipT gen n t hbr]
            exact h3
        | some br =>
          obtain ⟨body, rest⟩ := br
          have hlt := scanDelim_rest_lt '<' '>' t [] body rest hbr
          have hsound := scanDelim_sound '<' '>' t [] body rest hbr
          simp only [List.reverse_nil, List.nil_append] at hsound
          obtain ⟨head, trips, h1, h2, h3, h4, h5⟩ := ih rest (n + 1) (by omega)
          refine ⟨[], (n, '<' :: (body ++ ['>']), head) :: trips, ?_, ?_, ?_, ?_, ?_⟩
          · simp only [List.map_cons, List.flatten_cons, List.nil_append]
            rw [hsound, h1]
            simp [List.append_assoc]
          · rw [extractGo_cons_matchT gen n t body rest hbr, h2]
            rfl
          · rw [extractGo_cons_matchT gen n t body rest hbr, h3]
            rfl
          · simp only [List.map_cons, List.length_cons]
            rw [h4, List.range'_succ]
          · intro tr htr
            rcases List.mem_cons.mp htr with h | h
            · subst h; simp
            · exact h5 tr h
      · by_cases hc2 : c = '\x7b'
        · subst hc2
          cases hbr : scanDelim '\x7b' '\x7d' t [] with
          | none =>
            obtain ⟨head, trips, h1, h2, h3, h4, h5⟩ := ih t n htm
            refine ⟨'\x7b' :: head, trips, ?_, ?_, ?_, h4, h5⟩
            · rw [List.cons_append, ← h1]
            · rw [extractGo_cons_skipB gen n t hbr, h2,
                show ('\x7b' :: head) = ['\x7b'] ++ head from rfl, buildP_append]
              rfl
            · rw [extractGo_cons_skipB gen n t hbr]
              exact h3
          | some br =>
            obtain ⟨body, rest⟩ := br
            have hlt := scanDelim_rest_lt '\x7b' '\x7d' t [] body rest hbr
            have hsound := scanDelim_sound '\x7b' '\x7d' t [] body rest hbr
            simp only [List.reverse_nil, List.nil_append] at hsound
            obtain ⟨head, trips, h1, h2, h3, h4, h5⟩ := ih rest (n + 1) (by omega)
            refine ⟨[], (n, '\x7b' :: (body ++ ['\x7d']), head) :: trips,
              ?_, ?_, ?_, ?_, ?_⟩
            · simp only [List.map_cons, List.flatten_cons, List.nil_append]
              rw [hsound, h1]
              simp [List.append_assoc]
            · rw [extractGo_cons_matchB gen n t body rest hbr, h2]
              rfl
            · rw [extractGo_cons_matchB gen n t body rest hbr, h3]
              rfl
            · simp only [List.map_cons, List.length_cons]
              rw [h4, List.range'_succ]
            · intro tr htr
              rcases List.mem_cons.mp htr with h | h
              · subst h; simp
              · exact h5 tr h
        · have hb1 : (c == '<') = false := by
            simp only [beq_eq_false_iff_ne, ne_eq]
            exact hc1
          have hb2 : (c == '\x7b') = false := by
            simp only [beq_eq_false_iff_ne, ne_eq]
            exact hc2
          obtain ⟨head, trips, h1, h2, h3, h4, h5⟩ := ih t n htm
          refine ⟨c :: head, trips, ?_, ?_, ?_, h4, h5⟩
          · rw [List.cons_append, ← h1]
          · rw [extractGo_cons_lit gen n c t hb1 hb2, h2,
              show (c :: head) = [c] ++ head from rfl, buildP_append]
            rfl
          · rw [extractGo_cons_lit gen n c t hb1 hb2]
            exact h3

/-- Folding the replacements over an interleaving restores the original text,
provided the cores are 32 characters, underscore-free, fresh and pairwise
distinct. -/
theorem restore_build (gen : Nat → Str) (text : Str) :
    ∀ (trips : List (Nat × Str × Str)) (head : Str),
    head ++ (trips.map fun tr => tr.2.1 ++ tr.2.2).flatten = text →
    (∀ tr ∈ trips, (gen tr.1).length = 32 ∧ '_' ∉ gen tr.1 ∧
      ∀ q, ¬ gen tr.1 <+: text.drop q) →
    List.Pairwise (fun tr tr' => gen tr.1 ≠ gen tr'.1) trips →
    restore_placeholders (buildP gen head (trips.map fun tr => (tr.1, tr.2.2)))
      (trips.map fun tr => (phToken (gen tr.1), tr.2.1)) = text := by
  intro trips
  induction trips with
  | nil =>
    intro head heq _ _
    simpa [restore_placeholders, buildP] using heq
  | cons tr0 rest ih =>
    obtain ⟨i0, o0, s0⟩ := tr0
    intro head heq hgood hpw
    have hg0 := hgood (i0, o0, s0) (List.mem_cons_self _ _)
    have hheadinf : head <:+: text := (List.IsPrefix.isInfix ⟨_, heq⟩)
    have heq' : (head ++ o0 ++ s0) ++ (rest.map fun tr => tr.2.1 ++ tr.2.2).flatten
        = text := by
      rw [← heq]
      simp [List.append_assoc]
    have hs0inf : s0 <:+: text :=
      ⟨head ++ o0, (rest.map fun tr => tr.2.1 ++ tr.2.2).flatten, heq'⟩
    have hrestinf : ∀ q ∈ rest.map (fun tr => ((tr.1 : Nat), tr.2.2)),
        q.2 <:+: text ∧ (gen q.1).length = 32 := by
      intro q hq
      obtain ⟨tr, htr, hqe⟩ := List.mem_map.mp hq
      constructor
      · have h1 : (tr.2.1 ++ tr.2.2) ∈ rest.map fun tr => tr.2.1 ++ tr.2.2 :=
          List.mem_map_of_mem _ htr
        have h2 := infix_flatten_of_mem _ _ h1
        have h3 : (rest.map fun tr => tr.2.1 ++ tr.2.2).flatten <:+: text :=
          ⟨head ++ o0 ++ s0, [], by rw [List.append_nil]; exact heq'⟩
        have h4 : tr.2.2 <:+: tr.2.1 ++ tr.2.2 := ⟨tr.2.1, [], by simp⟩
        have h5 := h4.trans (h2.trans h3)
        rw [← hqe]
        exact h5
      · rw [← hqe]
        exact (hgood tr (List.mem_cons_of_mem _ htr)).1
    have hallinf : ∀ q ∈ ((i0, s0) :: rest.map (fun tr => ((tr.1 : Nat), tr.2.2))),
        q.2 <:+: text ∧ (gen q.1).length = 32 := by
      intro q hq
      rcases List.mem_cons.mp hq with h | h
      · subst h
        exact ⟨hs0inf, hg0.1⟩
      · exact hrestinf q h
    have htok_ne : phToken (gen i0) ≠ [] := by simp [phToken, chars]
    have hush : buildP gen head ((i0, s0) :: rest.map fun tr => (tr.1, tr.2.2))
        = head ++ phToken (gen i0)
          ++ buildP gen s0 (rest.map fun tr => (tr.1, tr.2.2)) := rfl
    have hstep : pyReplace
        (buildP gen head ((i0, s0) :: rest.map fun tr => (tr.1, tr.2.2)))
        (phToken (gen i0)) o0
        = head ++ o0 ++ buildP gen s0 (rest.map fun tr => (tr.1, tr.2.2)) := by
      rw [hush]
      apply pyReplace_unique_occ head _ _ o0 htok_ne
      · intro r hrlt hocc
        rw [← hush] at hocc
        obtain ⟨a, b, j, seg, hsp, hgj, hp⟩ := tok_occ gen text i0
          hg0.1 hg0.2.1 hg0.2.2
          ((i0, s0) :: rest.map fun tr => (tr.1, tr.2.2)) head hheadinf hallinf
          r hocc
        have hge := buildP_length_ge gen head a
        omega
      · intro r hocc
        obtain ⟨a, b, j, seg, hsp, hgj, hp⟩ := tok_occ gen text i0
          hg0.1 hg0.2.1 hg0.2.2
          (rest.map fun tr => (tr.1, tr.2.2)) s0 hs0inf hrestinf r hocc
        have hjm : ((j, seg) : Nat × Str) ∈ rest.map fun tr => ((tr.1 : Nat), tr.2.2) := by
          rw [hsp]
          exact List.mem_append.mpr (Or.inr (List.mem_cons_self _ _))
        obtain ⟨tr', htr', he⟩ := List.mem_map.mp hjm
        have hne := (List.pairwise_cons.mp hpw).1 tr' htr'
        apply hne
        have hj : tr'.1 = j := congrArg Prod.fst he
        rw [hj, hgj]
    simp only [List.map_cons]
    show ((phToken (gen i0), o0) :: rest.map fun tr => (phToken (gen tr.1), tr.2.1)).foldl
      (fun s p => pyReplace s p.1 p.2)
      (buildP gen head ((i0, s0) :: rest.map fun tr => (tr.1, tr.2.2))) = text
    rw [List.foldl_cons]
    show (rest.map fun tr => (phToken (gen tr.1), tr.2.1)).foldl
      (fun s p => pyReplace s p.1 p.2)
      (pyReplace (buildP gen head ((i0, s0) :: rest.map fun tr => (tr.1, tr.2.2)))
        (phToken (gen i0)) o0) = text
    rw [hstep, ← buildP_append gen (head ++ o0) s0]
    exact ih (head ++ o0 ++ s0) heq'
      (fun tr htr => hgood tr (List.mem_cons_of_mem _ htr))
      (List.pairwise_cons.mp hpw).2

/-- **C10 (amended).** Placeholder protection round-trips under the real shape
of the generated tokens: if every generated core is a 32-character string
without underscores (as `uuid4().hex` is), the cores used are pairwise
distinct, and no core occurs as a substring of the input, then
`restore_placeholders` applied to the output of `extract_placeholders`
returns the original text exactly.  (Freshness of the full `__PH_<hex>__`
tokens alone is not sufficient; see the counterexample.) -/
theorem extract_restore_roundtrip (gen : Nat → Str) (text : Str)
    (hlen : ∀ n, n < text.length → (gen n).length = 32)
    (hund : ∀ n, n < text.length → '_' ∉ gen n)
    (hinj : ∀ m, m < text.length → ∀ n, n < text.length → gen m = gen n → m = n)
    (hfresh : ∀ n, n < text.length → isSubstring (gen n) text = false) :
    restore_placeholders (extract_placeholders gen text).1
      (extract_placeholders gen text).2 = text := by
  obtain ⟨head, trips, h1, h2, h3, h4, h5⟩ :=
    extract_structure gen text.length text 0 (Nat.le_refl _)
  have hep1 : (extract_placeholders gen text).1
      = buildP gen head (trips.map fun tr => (tr.1, tr.2.2)) := h2
  have hep2 : (extract_placeholders gen text).2
      = trips.map fun tr => (phToken (gen tr.1), tr.2.1) := h3
  rw [hep1, hep2]
  have hne : ∀ x ∈ trips.map fun tr => tr.2.1 ++ tr.2.2, x ≠ [] := by
    intro x hx
    obtain ⟨tr, htr, hxe⟩ := List.mem_map.mp hx
    rw [← hxe]
    intro hxeq
    exact h5 tr htr (List.append_eq_nil.mp hxeq).1
  have hfl := length_le_length_flatten _ hne
  rw [List.length_map] at hfl
  have hlen2 : text.length
      = head.length + ((trips.map fun tr => tr.2.1 ++ tr.2.2).flatten).length := by
    conv_lhs => rw [h1]
    rw [List.length_append]
  have hidxlt : ∀ tr ∈ trips, tr.1 < text.length := by
    intro tr htr
    have h6 : tr.1 ∈ trips.map Prod.fst := List.mem_map_of_mem _ htr
    rw [h4] at h6
    obtain ⟨i, hi, hie⟩ := List.mem_range'.mp h6
    omega
  refine restore_build gen text trips head h1.symm ?_ ?_
  · intro tr htr
    have hb := hidxlt tr htr
    exact ⟨hlen _ hb, hund _ hb, isSubstring_eq_false _ _ (hfresh _ hb)⟩
  · have hplt : List.Pairwise (· < ·) (trips.map Prod.fst) := by
      rw [h4]
      exact List.pairwise_lt_range' 0 trips.length 1
    rw [List.pairwise_map] at hplt
    refine List.Pairwise.imp_of_mem ?_ hplt
    intro a b ha hb hlt' hgeq
    have := hinj a.1 (hidxlt a ha) b.1 (hidxlt b hb) hgeq
    omega

/-- Constant core generator for the counterexample: every token core is 32
copies of `a`. -/
def genA : Nat → Str := fun _ => List.replicate 32 'a'

/-- Counterexample input: the text starts with the literal characters
`__PH_` followed by 32 `a`s, then a placeholder.  The freshly generated token
`__PH_aaa...a__` does not occur in it, yet protection does not round-trip. -/
def textA : Str := chars "__PH_" ++ List.replicate 32 'a' ++ chars "\x7bx\x7d"

/-- **C10 (counterexample).** Freshness of the full generated tokens is not
enough: none of the tokens `__PH_<core>__` occurs in `textA`, but after
extraction the processed text contains a spurious second occurrence of the
token (the text's own `__PH_` + core prefix followed by the inserted token's
leading underscores), and `str.replace` replaces all occurrences, so
restoration does not return the input. -/
theorem extract_restore_not_roundtrip :
    (∀ k : Nat, isSubstring (phToken (genA k)) textA = false) ∧
    restore_placeholders (extract_placeholders genA textA).1
      (extract_placeholders genA textA).2 ≠ textA :=
  ⟨fun k =>
    show isSubstring (phToken (List.replicate 32 'a')) textA = false by decide,
    by decide⟩

/-- Witness core generator: 31 `f`s followed by a distinct letter. -/
def genW : Nat → Str := fun n => List.replicate 31 'f' ++ [Char.ofNat (98 + n)]

/-- Witness text with one brace placeholder and one tag. -/
def textW : Str := chars "Hi \x7b0\x7d <b>!"

theorem extract_restore_roundtrip_witness :
    (∀ n, n < textW.length → (genW n).length = 32) ∧
    (∀ n, n < textW.length → '_' ∉ genW n) ∧
    (∀ m, m < textW.length → ∀ n, n < textW.length → genW m = genW n → m = n) ∧
    (∀ n, n < textW.length → isSubstring (genW n) textW = false) ∧
    restore_placeholders (extract_placeholders genW textW).1
      (extract_placeholders genW textW).2 = textW :=
  ⟨by decide, by decide, by decide, by decide,
    extract_restore_roundtrip genW textW (by decide) (by decide) (by decide)
      (by decide)⟩
